import Mathlib

/-!
# Verification of the SocialX XML editor core (`src/controllers/xml_controller.py`)

Shallow embedding of the `XMLController` class: the tokenizer
(`_get_tokens`), the formatter (`format`), the minifier (`minify`) and the
validator (`validate` together with `_collect_user_ids`).  Strings are
embedded as `List Char`; every definition mirrors the corresponding Python
code line by line.  The validator's use of the undefined global name
`show_line_preview` (a `NameError` at run time) is embedded by returning
`Except.error PyExn.nameErr` at exactly the program points where the Python
interpreter would raise.
-/

namespace SocialX

/-- Character strings, embedded as lists of characters (Python `str`). -/
abbrev Str := List Char

/-- Python `str.isspace` on the ASCII whitespace characters
(space, tab, newline, carriage return, vertical tab, form feed);
all documents treated here are ASCII. -/
def pyIsSpace (c : Char) : Bool :=
  c = ' ' || c = '\t' || c = '\n' || c = '\r' || c = Char.ofNat 11 || c = Char.ofNat 12

/-- `List.dropWhile` from the right. -/
def dropRightWhile (p : Char → Bool) (l : Str) : Str :=
  (l.reverse.dropWhile p).reverse

/-- Python `str.strip()` with no argument: remove leading and trailing
whitespace. -/
def stripL (l : Str) : Str :=
  dropRightWhile pyIsSpace (l.dropWhile pyIsSpace)

/-- One step of Python `str.split()` (split on whitespace runs, discarding
empty pieces), phrased as a left fold.  The state is the list of completed
words together with the current (possibly empty) pending word. -/
def splitWStep (st : List Str × Str) (c : Char) : List Str × Str :=
  if pyIsSpace c then
    if st.2 = [] then st else (st.1 ++ [st.2], [])
  else
    (st.1, st.2 ++ [c])

/-- Python `str.split()`: the whitespace-separated words of `l`. -/
def pySplitW (l : Str) : List Str :=
  let st := l.foldl splitWStep ([], [])
  if st.2 = [] then st.1 else st.1 ++ [st.2]

/-- `" ".join(words)`. -/
def joinSp : List Str → Str
  | [] => []
  | [w] => w
  | w :: ws => w ++ ' ' :: joinSp ws

/-- `" ".join(text.split())` — the whitespace normalisation performed by
`XMLController.format` on leaf text (`clean_text`). -/
def cleanWs (t : Str) : Str :=
  joinSp (pySplitW t)

/-! ## Tokenizer (`XMLController._get_tokens`)

The Python tokenizer scans the document left to right: on `<` it takes
everything up to and including the next `>` as one tag token (stopping
silently if there is none), otherwise it accumulates text up to the next
`<` and emits it stripped, provided the stripped text is non-empty.  This
is a character-at-a-time state machine, embedded as a left fold. -/

/-- Tokenizer mode: accumulating text, or inside a `<...>` tag. -/
inductive TMode : Type
  | text (acc : Str)
  | tag (acc : Str)
deriving Repr, DecidableEq

/-- Tokenizer state: emitted tokens so far plus the current mode. -/
structure TokSt where
  toks : List Str
  mode : TMode
deriving Repr, DecidableEq

/-- Emit a text accumulator as Python does: `raw_text.strip()` is appended
unless it is empty. -/
def emitText (acc : Str) : List Str :=
  if stripL acc = [] then [] else [stripL acc]

/-- One tokenizer step on one character. -/
def tokStep (st : TokSt) (c : Char) : TokSt :=
  match st.mode with
  | .text acc =>
      if c = '<' then ⟨st.toks ++ emitText acc, .tag ['<']⟩
      else ⟨st.toks, .text (acc ++ [c])⟩
  | .tag acc =>
      if c = '>' then ⟨st.toks ++ [acc ++ ['>']], .text []⟩
      else ⟨st.toks, .tag (acc ++ [c])⟩

/-- Run the tokenizer from a given state over a string. -/
def runTok (st : TokSt) (l : Str) : TokSt :=
  l.foldl tokStep st

/-- Finalize: a pending text accumulator is emitted (the Python text branch
runs to the end of the string); a pending unterminated tag is dropped
(Python `break`s when `find('>')` fails). -/
def finTok (st : TokSt) : List Str :=
  match st.mode with
  | .text acc => st.toks ++ emitText acc
  | .tag _ => st.toks

/-- `XMLController._get_tokens`. -/
def getTokens (l : Str) : List Str :=
  finTok (runTok ⟨[], .text []⟩ l)

/-! ## Formatter (`XMLController.format`) and minifier (`XMLController.minify`) -/

/-- `token.startswith('<')`. -/
def isLtStart : Str → Bool
  | '<' :: _ => true
  | _ => false

/-- `token.startswith('</')`. -/
def isCloseStart : Str → Bool
  | '<' :: '/' :: _ => true
  | _ => false

/-- `indentation * level` where `indentation = "    "` (four spaces). -/
def indentN (level : Nat) : Str :=
  List.replicate (4 * level) ' '

/-- One greedy line-filling step: `cur` is the current line's words (never
empty), `ws` the remaining words.  A word is added while the line (words
joined by single spaces) stays within the width. -/
def greedyFill (width : Nat) (cur : List Str) : List Str → List (List Str)
  | [] => [cur]
  | w :: ws =>
      if (joinSp (cur ++ [w])).length ≤ width then greedyFill width (cur ++ [w]) ws
      else cur :: greedyFill width [w] ws

/-- Greedy grouping of words into lines of at most `width` columns (a word
longer than the width occupies a line by itself). -/
def wrapGroups (width : Nat) : List Str → List (List Str)
  | [] => []
  | w :: ws => greedyFill width [w] ws

/-- Modelled from the spec: the call
`textwrap.TextWrapper(width=MAX_WIDTH, break_long_words=False).wrap(clean_text)`
is external-library behaviour, described by the spec as "greedily wrap the
normalized text into lines no wider than 80 columns without splitting
words"; it is modelled as greedy filling of the whitespace-separated words,
never splitting a word. -/
def wrapText (width : Nat) (t : Str) : List Str :=
  (wrapGroups width (pySplitW t)).map joinSp

/-- `MAX_WIDTH` in `XMLController.format`. -/
def MAX_WIDTH : Nat := 80

/-- The body of the `while` loop of `XMLController.format`, as a recursion
over the token list carrying the indentation `level`.  Returns the list of
entries that Python accumulates in `formatted` (one entry per `append`).
The leaf pattern (`k + 2 < len(tokens)` with a non-tag token followed by a
closing tag) is only possible when at least two tokens follow. -/
def formatTokens : List Str → Nat → List Str
  | [], _ => []
  | t :: t1 :: t2 :: rest2, level =>
    if isCloseStart t then
      -- level = max(0, level - 1); emit at the decremented level
      (indentN (level - 1) ++ t) :: formatTokens (t1 :: t2 :: rest2) (level - 1)
    else if isLtStart t then
      -- k + 2 < len(tokens) and not tokens[k+1].startswith('<')
      -- and tokens[k+2].startswith('</')  (leaf pattern)
      if !isLtStart t1 && isCloseStart t2 then
        let ct := cleanWs t1
        if MAX_WIDTH < ct.length then
          ((indentN level ++ t) ::
            (wrapText MAX_WIDTH ct).map (fun w => indentN (level + 1) ++ w)) ++
            ((indentN level ++ t2) :: formatTokens rest2 level)
        else
          (indentN level ++ t ++ ct ++ t2) :: formatTokens rest2 level
      else
        (indentN level ++ t) :: formatTokens (t1 :: t2 :: rest2) (level + 1)
    else
      (indentN level ++ stripL t) :: formatTokens (t1 :: t2 :: rest2) level
  | t :: rest, level =>
    if isCloseStart t then
      (indentN (level - 1) ++ t) :: formatTokens rest (level - 1)
    else if isLtStart t then
      (indentN level ++ t) :: formatTokens rest (level + 1)
    else
      (indentN level ++ stripL t) :: formatTokens rest level
termination_by structural l _ => l

/-- `"\n".join(entries)`. -/
def joinNl : List Str → Str
  | [] => []
  | [e] => e
  | e :: es => e ++ '\n' :: joinNl es

/-- `XMLController.format`: `"\n".join(formatted)`. -/
def format (l : Str) : Str :=
  joinNl (formatTokens (getTokens l) 0)

/-- `XMLController.minify`: `"".join(tokens)`. -/
def minify (l : Str) : Str :=
  (getTokens l).flatten

/-- `format` on Lean `String`s. -/
def formatS (s : String) : String :=
  String.mk (format s.data)

/-- `minify` on Lean `String`s. -/
def minifyS (s : String) : String :=
  String.mk (minify s.data)

/-! ## Validator (`XMLController.validate`, `XMLController._collect_user_ids`)

The validator works line by line over `xml_string.split('\n')`.  It scans
each line with three regular expressions, maintains a tag stack, collects
semantic information, and reports errors.  Crucially, eight of its
error-reporting branches evaluate `if show_line_preview:` where
`show_line_preview` is a global name that is never defined anywhere in the
module (the lines carry `# type: ignore` comments); evaluating it raises
`NameError` at run time, aborting `validate`.  The embedding returns
`Except.error PyExn.nameErr` at exactly those points, before the error
would be appended or the stack popped, matching Python's evaluation
order. -/

/-- The `NameError` raised by evaluating the undefined global
`show_line_preview`. -/
inductive PyExn : Type
  | nameErr
deriving Repr, DecidableEq

/-- One entry of the `errors` list of a validation result:
line number, description, and the `type` string
(`"syntax"`, `"structure"` or `"semantic"`). -/
structure VError where
  line : Nat
  descr : Str
  vtype : Str
deriving Repr, DecidableEq

/-- The dictionary returned by `XMLController.validate`. -/
structure VResult where
  is_valid : Bool
  error_count : Nat
  errors : List VError
deriving Repr, DecidableEq

/-- `[a-zA-Z_]`, the first character of a tag name. -/
def isNameStart (c : Char) : Bool :=
  c.isAlpha || c = '_'

/-- `[a-zA-Z0-9_]`, a subsequent character of a tag name. -/
def isNameChar (c : Char) : Bool :=
  c.isAlphanum || c = '_'

/-- `list.isPrefixOf`, spelled out. -/
def hasPre : Str → Str → Bool
  | [], _ => true
  | _ :: _, [] => false
  | p :: ps, c :: cs => p = c && hasPre ps cs

/-- Index of the first occurrence of `pat` as a contiguous substring
(Python `str.find` / the `in` operator). -/
def findSub (pat : Str) : Str → Option Nat
  | [] => if pat = [] then some 0 else none
  | c :: rest =>
      if hasPre pat (c :: rest) then some 0
      else (findSub pat rest).map (· + 1)

/-- Python `pat in line`. -/
def hasSub (pat l : Str) : Bool :=
  (findSub pat l).isSome

/-- `str.split('\n')` (keeps empty pieces). -/
def splitNl : Str → List Str
  | [] => [[]]
  | c :: rest =>
    if c = '\n' then [] :: splitNl rest
    else
      match splitNl rest with
      | [] => [[c]]
      | h :: t => (c :: h) :: t

/-- Scanner state for `re.findall(r'<([a-zA-Z_][a-zA-Z0-9_]*)[^/>]*>', line)`:
outside any candidate, just after a `<`, inside the name group, or inside
the `[^/>]*` run (which absorbs every character other than `/` and `>`,
including further `<`s).  A `/` aborts the candidate (and no match can
start inside the absorbed span, since any such match would stop at the same
`/`); a `>` completes it. -/
inductive OScan : Type
  | out
  | expectName
  | inName (acc : Str)
  | inSkip (name : Str)
deriving Repr, DecidableEq

/-- One character step of the opening-tag scanner. -/
def openStep (st : List Str × OScan) (c : Char) : List Str × OScan :=
  match st.2 with
  | .out => if c = '<' then (st.1, .expectName) else (st.1, .out)
  | .expectName =>
      if isNameStart c then (st.1, .inName [c])
      else if c = '<' then (st.1, .expectName)
      else (st.1, .out)
  | .inName acc =>
      if isNameChar c then (st.1, .inName (acc ++ [c]))
      else if c = '>' then (st.1 ++ [acc], .out)
      else if c = '/' then (st.1, .out)
      else (st.1, .inSkip acc)
  | .inSkip name =>
      if c = '>' then (st.1 ++ [name], .out)
      else if c = '/' then (st.1, .out)
      else (st.1, .inSkip name)

/-- `re.findall(r'<([a-zA-Z_][a-zA-Z0-9_]*)[^/>]*>', line)`. -/
def findallOpen (l : Str) : List Str :=
  (l.foldl openStep ([], .out)).1

/-- Scanner state for `re.findall(r'</([a-zA-Z_][a-zA-Z0-9_]*)>', line)`. -/
inductive CScan : Type
  | out
  | seenLt
  | seenSlash
  | cName (acc : Str)
deriving Repr, DecidableEq

/-- One character step of the closing-tag scanner. -/
def closeStep (st : List Str × CScan) (c : Char) : List Str × CScan :=
  match st.2 with
  | .out => if c = '<' then (st.1, .seenLt) else (st.1, .out)
  | .seenLt =>
      if c = '/' then (st.1, .seenSlash)
      else if c = '<' then (st.1, .seenLt)
      else (st.1, .out)
  | .seenSlash =>
      if isNameStart c then (st.1, .cName [c])
      else if c = '<' then (st.1, .seenLt)
      else (st.1, .out)
  | .cName acc =>
      if isNameChar c then (st.1, .cName (acc ++ [c]))
      else if c = '>' then (st.1 ++ [acc], .out)
      else if c = '<' then (st.1, .seenLt)
      else (st.1, .out)

/-- `re.findall(r'</([a-zA-Z_][a-zA-Z0-9_]*)>', line)`. -/
def findallClose (l : Str) : List Str :=
  (l.foldl closeStep ([], .out)).1

/-- The alternative `<tag[^/>]*/>`: literal `<tag`, then a maximal run of
characters other than `/` and `>`, then `/>`. -/
def matchSelfClose (tag l : Str) : Bool :=
  hasPre ('<' :: tag) l &&
    (let a := l.drop (tag.length + 1)
     let run := a.takeWhile (fun c => c ≠ '/' && c ≠ '>')
     match a.drop run.length with
     | '/' :: '>' :: _ => true
     | _ => false)

/-- The alternative `<tag[^>]*>.*?</tag>`: literal `<tag`, a maximal run of
non-`>` characters, a `>`, then `</tag>` somewhere in the remainder (the
lazy `.*?` only requires existence, and lines never contain `'\n'`). -/
def matchOpenClosePair (tag l : Str) : Bool :=
  hasPre ('<' :: tag) l &&
    (let a := l.drop (tag.length + 1)
     let run := a.takeWhile (fun c => c ≠ '>')
     match a.drop run.length with
     | '>' :: r2 => hasSub ('<' :: '/' :: (tag ++ ['>'])) r2
     | _ => false)

/-- `re.search(rf'<{tag}[^/>]*/>|<{tag}[^>]*>.*?</{tag}>', line)` as a
Boolean: some start position admits one of the two alternatives. -/
def searchTagClosed (tag : Str) : Str → Bool
  | [] => false
  | c :: rest =>
      matchSelfClose tag (c :: rest) || matchOpenClosePair tag (c :: rest) ||
        searchTagClosed tag rest

/-- `re.search(r'<id>(.+?)</id>', line)`, returning the captured group:
the first `<id>` such that `</id>` occurs at least one character later; the
group is everything between (if the first `<id>` has no such `</id>`, no
later one has either, so a single attempt is faithful). -/
def searchIdGroup (l : Str) : Option Str :=
  match findSub "<id>".data l with
  | none => none
  | some p =>
    let a := l.drop (p + 4)
    match a with
    | [] => none
    | _ :: rest => (findSub "</id>".data rest).map (fun q => a.take (q + 1))

/-- Python `set.add` on a set modelled as a duplicate-free list. -/
def insertId (ids : List Str) (x : Str) : List Str :=
  if x ∈ ids then ids else ids ++ [x]

/-- One line of `XMLController._collect_user_ids`: a literal `<user>`
enters a user block, `</user>` leaves it, and inside a block each
`<id>value</id>` contributes the stripped value (an `elif` chain, so a
line containing `<user>` never also contributes an id). -/
def collectStep (st : Bool × List Str) (rawLine : Str) : Bool × List Str :=
  let line := stripL rawLine
  if hasSub "<user>".data line then (true, st.2)
  else if hasSub "</user>".data line then (false, st.2)
  else if st.1 && hasSub "<id>".data line then
    match searchIdGroup line with
    | some g => (st.1, insertId st.2 (stripL g))
    | none => st
  else st

/-- `XMLController._collect_user_ids` (first pass). -/
def collectUserIds (lines : List Str) : List Str :=
  (lines.foldl collectStep (false, [])).2

/-- Validator state threaded through the line loop: the tag stack (top at
the head; Python appends and pops at the end of its list), the set of user
ids seen so far, the deferred follower references, and the errors reported
so far. -/
structure VSt where
  stack : List (Str × Nat)
  userIds : List Str
  followers : List (Str × Nat)
  errs : List VError
deriving Repr, DecidableEq

/-- The closing-tag loop of `validate`.  A closing tag with an empty stack
builds a "no matching opening tag" error and then evaluates the undefined
`show_line_preview` (`NameError`); a mismatched name likewise raises before
the error is appended and before the pop; a matching name pops. -/
def doCloses : List Str → List (Str × Nat) → Except PyExn (List (Str × Nat))
  | [], sk => .ok sk
  | _ :: _, [] => .error .nameErr
  | tg :: tgs, (top, ln) :: sk' =>
      if top = tg then doCloses tgs sk'
      else .error (let _ := ln; .nameErr)

/-- The `<id>` semantic block of `validate`: runs when the line contains
`<id>` and the stack (after this line's opens and closes) has depth ≥ 2.
An empty id or a duplicate user id reaches an error branch guarded by the
undefined `show_line_preview` (`NameError`); a follower id is deferred. -/
def idSemantic (st : VSt) (lineNum : Nat) (line : Str)
    (stack2 : List (Str × Nat)) : Except PyExn (List Str × List (Str × Nat)) :=
  if hasSub "<id>".data line && 2 ≤ stack2.length then
    match searchIdGroup line with
    | none => .ok (st.userIds, st.followers)
    | some g =>
      let uid := stripL g
      let parent := (stack2.head?.map Prod.fst).getD []
      if uid = [] then .error .nameErr
      else if parent = "user".data then
        if uid ∈ st.userIds then .error .nameErr
        else .ok (st.userIds ++ [uid], st.followers)
      else if parent = "follower".data then
        .ok (st.userIds, st.followers ++ [(uid, lineNum)])
      else .ok (st.userIds, st.followers)
  else .ok (st.userIds, st.followers)

/-- One line of the main loop of `validate`: strip, skip empty lines, the
two malformed-tag syntax checks (whose error reporting evaluates the
undefined `show_line_preview`, hence `NameError`), the opening-tag pushes
(skipping tags self-closed or closed on the same line), the closing-tag
loop, the `<id>` semantics, and the empty `<name>`/`<body>` checks (which
append their errors directly, with no `show_line_preview` guard). -/
def doLine (st : VSt) (lineNum : Nat) (rawLine : Str) : Except PyExn VSt :=
  let line := stripL rawLine
  if line = [] then .ok st
  else if line.contains '<' && !line.contains '>' then .error .nameErr
  else if line.contains '>' && !line.contains '<' then .error .nameErr
  else
    let stack1 := (findallOpen line).foldl
      (fun sk tag => if searchTagClosed tag line then sk else (tag, lineNum) :: sk)
      st.stack
    match doCloses (findallClose line) stack1 with
    | .error e => .error e
    | .ok stack2 =>
      match idSemantic st lineNum line stack2 with
      | .error e => .error e
      | .ok (userIds2, followers2) =>
        let errs1 :=
          if hasSub "<name></name>".data line || hasSub "<name> </name>".data line then
            st.errs ++ [⟨lineNum, "Empty user name".data, "semantic".data⟩]
          else st.errs
        let errs2 :=
          if hasSub "<body></body>".data line || hasSub "<body> </body>".data line then
            errs1 ++ [⟨lineNum, "Empty post body".data, "semantic".data⟩]
          else errs1
        .ok ⟨stack2, userIds2, followers2, errs2⟩

/-- The line loop of `validate` (`enumerate(lines, 1)`). -/
def runLines : VSt → Nat → List Str → Except PyExn VSt
  | st, _, [] => .ok st
  | st, n, l :: ls =>
      match doLine st n l with
      | .error e => .error e
      | .ok st' => runLines st' (n + 1) ls

/-- The deferred follower-reference loop: a follower id absent from the
collected user-id set builds an "invalid follower reference" error and
then evaluates the undefined `show_line_preview` (`NameError`). -/
def checkFollowers (allIds : List Str) : List (Str × Nat) → Except PyExn Unit
  | [] => .ok ()
  | (fid, _) :: rest =>
      if fid ∈ allIds then checkFollowers allIds rest else .error .nameErr

/-- Stable insertion for sorting errors by line number
(`errors.sort(key=lambda x: x['line'])`, Python's sort is stable). -/
def insertErrByLine (e : VError) : List VError → List VError
  | [] => [e]
  | x :: xs => if e.line ≤ x.line then e :: x :: xs else x :: insertErrByLine e xs

/-- Stable sort of the error list by line number. -/
def sortErrs : List VError → List VError
  | [] => []
  | e :: es => insertErrByLine e (sortErrs es)

/-- The result returned for missing content (`if not self.xml_string:`,
which is taken both for `None` and for the empty string). -/
def noContentResult : VResult :=
  ⟨false, 1, [⟨0, "No XML content to validate".data, "structure".data⟩]⟩

/-- `XMLController.validate`.  The argument is the `xml_string` attribute
(`Option` because the constructor default is `None`).  After the line loop,
a non-empty tag stack reaches the unclosed-tag reporting loop, whose first
iteration evaluates the undefined `show_line_preview` (`NameError`). -/
def validate : Option Str → Except PyExn VResult
  | none => .ok noContentResult
  | some s =>
    if s = [] then .ok noContentResult
    else
      let lines := splitNl s
      let allIds := collectUserIds lines
      match runLines ⟨[], [], [], []⟩ 1 lines with
      | .error e => .error e
      | .ok st =>
        if st.stack ≠ [] then .error .nameErr
        else
          match checkFollowers allIds st.followers with
          | .error e => .error e
          | .ok _ =>
            let errs := sortErrs st.errs
            .ok ⟨errs.isEmpty, errs.length, errs⟩

/-- `validate` on Lean `String`s. -/
def validateS (s : Option String) : Except PyExn VResult :=
  validate (s.map String.data)

/-! ## Derived notions used by the theorems -/

/-- The run of the word-split fold from an arbitrary state. -/
def runSplit (st : List Str × Str) (l : Str) : List Str × Str :=
  l.foldl splitWStep st

/-- The pending word of the split fold, emitted if non-empty. -/
def emitWord (cur : Str) : List Str :=
  if cur = [] then [] else [cur]

/-- A token produced by the tag branch of the tokenizer: `<`, a body free
of `>`, and a final `>`. -/
def tagTok (t : Str) : Prop :=
  ∃ mid, t = '<' :: mid ++ ['>'] ∧ '>' ∉ mid

/-- A token produced by the text branch of the tokenizer: non-empty, free
of `<`, and fixed by `strip`. -/
def textTok (t : Str) : Prop :=
  t ≠ [] ∧ '<' ∉ t ∧ stripL t = t

/-- The head of the list, if any, starts with `<` (used to state that two
text tokens are never adjacent). -/
def headNotText : List Str → Prop
  | [] => True
  | t :: _ => isLtStart t = true

/-- Well-formed token lists: every token comes from one of the two
tokenizer branches, and no two text tokens are adjacent. -/
inductive WFT : List Str → Prop
  | nil : WFT []
  | tag {t : Str} {rest : List Str} : tagTok t → WFT rest → WFT (t :: rest)
  | txt {t : Str} {rest : List Str} :
      textTok t → headNotText rest → WFT rest → WFT (t :: rest)

/-- Wrapped leaf lines as they appear in `format`'s output, glued by the
newline and the one-level-deeper indent. -/
def joinWrapped (lvl : Nat) : List Str → Str
  | [] => []
  | [w] => w
  | w :: ws => w ++ '\n' :: (indentN lvl ++ joinWrapped lvl ws)

/-- What a leaf text token looks like after being rendered by `format` at
a given level and re-tokenized: the cleaned text if it fits the width,
otherwise the wrapped lines glued by newline plus indent. -/
def renderedText (level : Nat) (t : Str) : Str :=
  if MAX_WIDTH < (cleanWs t).length then
    joinWrapped (level + 1) (wrapText MAX_WIDTH (cleanWs t))
  else cleanWs t

/-- The token list recovered by re-tokenizing `format`'s output: tags come
back verbatim, bare text tokens stripped, and leaf text tokens rendered
(mirrors the branch structure of `formatTokens`). -/
def cleanToksL : List Str → Nat → List Str
  | [], _ => []
  | t :: t1 :: t2 :: rest2, level =>
    if isCloseStart t then t :: cleanToksL (t1 :: t2 :: rest2) (level - 1)
    else if isLtStart t then
      if !isLtStart t1 && isCloseStart t2 then
        t :: renderedText level t1 :: t2 :: cleanToksL rest2 level
      else t :: cleanToksL (t1 :: t2 :: rest2) (level + 1)
    else stripL t :: cleanToksL (t1 :: t2 :: rest2) level
  | t :: rest, level =>
    if isCloseStart t then t :: cleanToksL rest (level - 1)
    else if isLtStart t then t :: cleanToksL rest (level + 1)
    else stripL t :: cleanToksL rest level
termination_by structural l _ => l

/-- The full state invariant of the tokenizer fold: emitted tokens are
well formed, a text accumulator never contains `<` and may only follow a
tag token, and a tag accumulator is `<` followed by `>`-free characters. -/
def stInv : TokSt → Prop
  | ⟨toks, .text acc⟩ =>
      WFT toks ∧ '<' ∉ acc ∧ (toks = [] ∨ ∃ u, toks.getLast? = some u ∧ tagTok u)
  | ⟨toks, .tag acc⟩ => WFT toks ∧ ∃ mid, acc = '<' :: mid ∧ '>' ∉ mid

/-- The rendered output with each formatted entry preceded by a newline
(so that `'\n' :: format l = tailRender (getTokens l) 0` when the entry
list is non-empty). -/
def tailRender (T : List Str) (level : Nat) : Str :=
  ((formatTokens T level).map (fun e => '\n' :: e)).flatten

/-- The induction motive of the main rendering lemma: running the
tokenizer over the newline-prefixed rendering of `T`, starting from any
already-emitted tokens and any pending `<`-free text accumulator (empty
whenever `T` starts with a text token), emits exactly the rendered
tokens of `T`. -/
def Master (T : List Str) (level : Nat) : Prop :=
  ∀ (toks : List Str) (acc : Str), WFT T → '<' ∉ acc →
    (∀ u urest, T = u :: urest → isLtStart u = false → stripL acc = []) →
    finTok (runTok ⟨toks, .text acc⟩ (tailRender T level)) =
      toks ++ emitText acc ++ cleanToksL T level

/-! ## Concrete claim theorems -/

set_option maxRecDepth 40000

/-- C1.  The claim says `validate` always returns a `ValidationResult`
dictionary (no internal error escapes as an uncaught fault).  It is false:
on the one-line document `"<a"` the malformed-tag branch builds its syntax
error and then evaluates the undefined global `show_line_preview`, so the
Python call raises `NameError` instead of returning. -/
theorem validate_nameError_on_malformed_line :
    validateS (some "<a") = .error .nameErr := rfl

/-- C4.  `validate("")` returns `is_valid = False`, `error_count = 1`, and
exactly one error at line 0 of type `structure` with description exactly
`"No XML content to validate"`. -/
theorem validate_empty_string_result :
    validateS (some "") =
      .ok ⟨false, 1, [⟨0, "No XML content to validate".data, "structure".data⟩]⟩ := rfl

/-- C5.  The claim says validating
`"<user><id>1</id><name>Ali</name></user>"` yields `is_valid = True` with
no errors.  It is false: the line's opening tags are all skipped (their
closing tags are on the same line), yet its closing tags are still
scanned; the first one (`</id>`) finds an empty tag stack, builds a
"closing tag without matching opening tag" error, and then evaluates the
undefined `show_line_preview`, raising `NameError`. -/
theorem validate_single_line_user_raises :
    validateS (some "<user><id>1</id><name>Ali</name></user>") = .error .nameErr := rfl

/-- C6.  The claim says validating the duplicate-id document returns
exactly one "Duplicate user ID '1'" error.  It is false: as in the
single-user case, the first closing tag `</id>` is processed against an
empty tag stack and the reporting branch raises `NameError` (the duplicate
check itself is also unreachable here, since it requires stack depth ≥ 2
and nothing is ever pushed for this one-line document). -/
theorem validate_duplicate_id_doc_raises :
    validateS
      (some "<user><id>1</id><name>Ali</name></user><user><id>1</id><name>Omar</name></user>") =
      .error .nameErr := rfl

/-- C7.  The claim says validating the dangling-follower document returns
exactly one "Invalid follower reference ... '3'" error.  It is false for
the same reason as C5/C6: the first closing tag on the single line meets an
empty tag stack and the reporting branch raises `NameError` before any
follower id is ever recorded or checked. -/
theorem validate_follower_doc_raises :
    validateS
      (some "<user><id>1</id><name>Ali</name></user><user><id>2</id><name>Omar</name><follower><id>3</id></follower></user>") =
      .error .nameErr := rfl

/-- C8.  The claim says a mismatched closing tag emits exactly one
mismatched-tags structure error and still pops the top stack entry.  It is
false: in `"<a>\n<b>\n</c>\n</a>"` the line `</c>` finds `b` on top of the
stack, builds the mismatched-tags error, and then evaluates the undefined
`show_line_preview`, raising `NameError` before the error is appended and
before the pop. -/
theorem validate_mismatched_close_raises :
    validateS (some "<a>\n<b>\n</c>\n</a>") = .error .nameErr := rfl

/-- C10.  A controller whose `xml_string` was never set (`None`, the
constructor default) does not raise: `if not self.xml_string` is taken for
`None` exactly as for `""`, returning the same single-structure-error
result at line 0. -/
theorem validate_none_eq_empty :
    validateS none = validateS (some "") ∧
    validateS none =
      .ok ⟨false, 1, [⟨0, "No XML content to validate".data, "structure".data⟩]⟩ :=
  ⟨rfl, rfl⟩

/-- C2, counterexample.  The claim `minify(format(x)) == minify(x)` for
every structurally balanced `x` is false at the balanced document
`"<t>a  b</t>"` (its token sequence is the balanced `<t>`, text, `</t>`):
formatting collapses the double space inside the leaf text to a single
space, so the minified forms differ. -/
theorem minify_format_ne_minify_on_collapsible_text :
    getTokens "<t>a  b</t>".data = ["<t>".data, "a  b".data, "</t>".data] ∧
    minifyS (formatS "<t>a  b</t>") ≠ minifyS "<t>a  b</t>" :=
  ⟨rfl, by decide⟩

/-- C9, counterexample.  The claim says a bare text token in mixed content
is split on its embedded newlines, each line trimmed and emitted at the
current indent.  It is false: on `"<a>p\n  q<b></b></a>"` the bare token
`"p\n  q"` is emitted as one entry `indent + token.strip()`, so the second
text line keeps its original two-space indentation (`"  q"`) instead of the
claimed trimmed, indent-prefixed `"    q"`. -/
theorem format_bare_text_keeps_embedded_newlines :
    formatS "<a>p\n  q<b></b></a>" = "<a>\n    p\n  q\n    <b>\n    </b>\n</a>" ∧
    formatS "<a>p\n  q<b></b></a>" ≠ "<a>\n    p\n    q\n    <b>\n    </b>\n</a>" :=
  ⟨rfl, by decide⟩

/-! ## Whitespace and strip lemmas -/

theorem dropWhile_append_all {p : Char → Bool} {ws : Str} (a : Str)
    (h : ∀ c ∈ ws, p c = true) :
    List.dropWhile p (ws ++ a) = List.dropWhile p a := by
  induction ws with
  | nil => rfl
  | cons c cs ih =>
      have hc : p c = true := h c (List.mem_cons_self c cs)
      simp only [List.cons_append, List.dropWhile_cons, hc, if_true]
      exact ih fun d hd => h d (List.mem_cons_of_mem c hd)

theorem dropRightWhile_append_all {p : Char → Bool} {ws : Str} (a : Str)
    (h : ∀ c ∈ ws, p c = true) :
    dropRightWhile p (a ++ ws) = dropRightWhile p a := by
  unfold dropRightWhile
  rw [List.reverse_append, dropWhile_append_all a.reverse
    (fun c hc => h c (List.mem_reverse.mp hc))]

theorem stripL_ws_left {ws : Str} (a : Str) (h : ∀ c ∈ ws, pyIsSpace c = true) :
    stripL (ws ++ a) = stripL a := by
  unfold stripL
  rw [dropWhile_append_all a h]

theorem stripL_ws_right (a : Str) {ws : Str} (h : ∀ c ∈ ws, pyIsSpace c = true) :
    stripL (a ++ ws) = stripL a := by
  unfold stripL
  rw [List.dropWhile_append]
  by_cases he : (List.dropWhile pyIsSpace a).isEmpty
  · rw [if_pos he]
    rw [List.isEmpty_iff] at he
    rw [he, List.dropWhile_eq_nil_iff.mpr h]
  · rw [if_neg he, dropRightWhile_append_all _ h]

theorem stripL_pad {ws ws' : Str} (a : Str)
    (h : ∀ c ∈ ws, pyIsSpace c = true) (h' : ∀ c ∈ ws', pyIsSpace c = true) :
    stripL (ws ++ a ++ ws') = stripL a := by
  rw [List.append_assoc, stripL_ws_left _ h, stripL_ws_right _ h']

theorem dropWhile_eq_self_of_head {p : Char → Bool} {a : Str}
    (h : ∀ c, a.head? = some c → p c = false) : List.dropWhile p a = a := by
  cases a with
  | nil => rfl
  | cons c rest =>
      have := h c rfl
      simp [List.dropWhile_cons, this]

theorem dropRightWhile_eq_self_of_getLast {p : Char → Bool} {a : Str}
    (h : ∀ c, a.getLast? = some c → p c = false) : dropRightWhile p a = a := by
  unfold dropRightWhile
  rw [dropWhile_eq_self_of_head, List.reverse_reverse]
  intro c hc
  exact h c (by rwa [List.head?_reverse] at hc)

theorem stripL_eq_self_of_ends {a : Str}
    (h1 : ∀ c, a.head? = some c → pyIsSpace c = false)
    (h2 : ∀ c, a.getLast? = some c → pyIsSpace c = false) : stripL a = a := by
  unfold stripL
  rw [dropWhile_eq_self_of_head h1, dropRightWhile_eq_self_of_getLast h2]

theorem head?_dropWhile_false {p : Char → Bool} {a : Str} {c : Char}
    (h : (List.dropWhile p a).head? = some c) : p c = false := by
  induction a with
  | nil => simp [List.dropWhile] at h
  | cons d rest ih =>
      rw [List.dropWhile_cons] at h
      by_cases hd : p d
      · rw [if_pos hd] at h
        exact ih h
      · rw [if_neg hd] at h
        simp only [List.head?_cons, Option.some.injEq] at h
        subst h
        exact Bool.eq_false_iff.mpr hd

theorem dropRightWhile_isPre {p : Char → Bool} (a : Str) :
    ∃ t, a = dropRightWhile p a ++ t := by
  unfold dropRightWhile
  refine ⟨(a.reverse.takeWhile p).reverse, ?_⟩
  rw [← List.reverse_append, List.takeWhile_append_dropWhile, List.reverse_reverse]

theorem head?_stripL_false {a : Str} {c : Char}
    (h : (stripL a).head? = some c) : pyIsSpace c = false := by
  unfold stripL at h
  obtain ⟨t, ht⟩ := @dropRightWhile_isPre pyIsSpace (List.dropWhile pyIsSpace a)
  have : (List.dropWhile pyIsSpace a).head? = some c := by
    rw [ht, List.head?_append, h]
    rfl
  exact head?_dropWhile_false this

theorem getLast?_stripL_false {a : Str} {c : Char}
    (h : (stripL a).getLast? = some c) : pyIsSpace c = false := by
  unfold stripL dropRightWhile at h
  rw [List.getLast?_reverse] at h
  exact head?_dropWhile_false h

theorem stripL_idem (a : Str) : stripL (stripL a) = stripL a :=
  stripL_eq_self_of_ends (fun _ => head?_stripL_false) (fun _ => getLast?_stripL_false)

theorem dropRightWhile_eq_nil_iff {p : Char → Bool} {a : Str} :
    dropRightWhile p a = [] ↔ ∀ c ∈ a, p c = true := by
  unfold dropRightWhile
  rw [List.reverse_eq_nil_iff, List.dropWhile_eq_nil_iff]
  constructor
  · intro h c hc
    exact h c (List.mem_reverse.mpr hc)
  · intro h c hc
    exact h c (List.mem_reverse.mp hc)

theorem stripL_eq_nil_iff {a : Str} :
    stripL a = [] ↔ ∀ c ∈ a, pyIsSpace c = true := by
  unfold stripL
  rw [dropRightWhile_eq_nil_iff]
  constructor
  · intro h c hc
    have hsplit : List.takeWhile pyIsSpace a ++ List.dropWhile pyIsSpace a = a :=
      List.takeWhile_append_dropWhile ..
    rcases List.mem_append.mp (hsplit ▸ hc) with h1 | h2
    · exact List.mem_takeWhile_imp h1
    · exact h c h2
  · intro h c hc
    have hsub : List.Sublist (List.dropWhile pyIsSpace a) a :=
      List.dropWhile_sublist ..
    exact h c (hsub.mem hc)

theorem mem_stripL {a : Str} {c : Char} (h : c ∈ stripL a) : c ∈ a := by
  unfold stripL dropRightWhile at h
  have hs1 : List.Sublist
      (List.dropWhile pyIsSpace (List.dropWhile pyIsSpace a).reverse)
      (List.dropWhile pyIsSpace a).reverse :=
    List.dropWhile_sublist ..
  have h1 := hs1.mem (List.mem_reverse.mp h)
  have hs2 : List.Sublist (List.dropWhile pyIsSpace a) a :=
    List.dropWhile_sublist ..
  exact hs2.mem (List.mem_reverse.mp h1)

/-! ## Word-split lemmas -/

theorem runSplit_append (st : List Str × Str) (a b : Str) :
    runSplit st (a ++ b) = runSplit (runSplit st a) b :=
  List.foldl_append ..

theorem splitWStep_ws {c : Char} (hc : pyIsSpace c = true) (d : List Str) (cur : Str) :
    splitWStep (d, cur) c = (d ++ emitWord cur, []) := by
  unfold splitWStep emitWord
  by_cases h : cur = []
  · simp [hc, h]
  · simp [hc, h]

theorem splitWStep_nows {c : Char} (hc : pyIsSpace c = false) (d : List Str) (cur : Str) :
    splitWStep (d, cur) c = (d, cur ++ [c]) := by
  unfold splitWStep
  simp [hc]

theorem runSplit_nows {w : Str} (h : ∀ c ∈ w, pyIsSpace c = false) (d : List Str)
    (cur : Str) : runSplit (d, cur) w = (d, cur ++ w) := by
  induction w generalizing cur with
  | nil => simp [runSplit]
  | cons c rest ih =>
      have hc : pyIsSpace c = false := h c (List.mem_cons_self c rest)
      show runSplit (splitWStep (d, cur) c) rest = _
      rw [splitWStep_nows hc, ih (fun x hx => h x (List.mem_cons_of_mem c hx)),
        List.append_assoc]
      rfl

theorem runSplit_ws_empty {w : Str} (h : ∀ c ∈ w, pyIsSpace c = true) (d : List Str) :
    runSplit (d, []) w = (d, []) := by
  induction w with
  | nil => rfl
  | cons c rest ih =>
      have hc : pyIsSpace c = true := h c (List.mem_cons_self c rest)
      have hre : runSplit (d, []) (c :: rest) = runSplit (d, []) rest := by
        show runSplit (splitWStep (d, []) c) rest = _
        rw [splitWStep_ws hc]
        simp [emitWord]
      rw [hre]
      exact ih fun x hx => h x (List.mem_cons_of_mem c hx)

theorem runSplit_allws {w : Str} (hne : w ≠ []) (h : ∀ c ∈ w, pyIsSpace c = true)
    (d : List Str) (cur : Str) : runSplit (d, cur) w = (d ++ emitWord cur, []) := by
  cases w with
  | nil => exact absurd rfl hne
  | cons c rest =>
      have hc : pyIsSpace c = true := h c (List.mem_cons_self c rest)
      show runSplit (splitWStep (d, cur) c) rest = _
      rw [splitWStep_ws hc]
      exact runSplit_ws_empty (fun x hx => h x (List.mem_cons_of_mem c hx)) _

theorem runSplit_shift (l : Str) (d : List Str) (cur : Str) :
    runSplit (d, cur) l = (d ++ (runSplit ([], cur) l).1, (runSplit ([], cur) l).2) := by
  induction l generalizing d cur with
  | nil => simp [runSplit]
  | cons c rest ih =>
      by_cases hc : pyIsSpace c
      · show runSplit (splitWStep (d, cur) c) rest = _
        rw [splitWStep_ws hc]
        have h2 : runSplit ([], cur) (c :: rest) = runSplit (emitWord cur, []) rest := by
          show runSplit (splitWStep ([], cur) c) rest = _
          rw [splitWStep_ws hc]
          rfl
        rw [h2, ih, ih (emitWord cur) [], List.append_assoc]
      · have hc' : pyIsSpace c = false := Bool.eq_false_iff.mpr hc
        show runSplit (splitWStep (d, cur) c) rest = _
        rw [splitWStep_nows hc']
        have h2 : runSplit ([], cur) (c :: rest) = runSplit ([], cur ++ [c]) rest := by
          show runSplit (splitWStep ([], cur) c) rest = _
          rw [splitWStep_nows hc']
        rw [h2, ih]

theorem pySplitW_run (l : Str) :
    pySplitW l = (runSplit ([], []) l).1 ++ emitWord (runSplit ([], []) l).2 := by
  unfold pySplitW emitWord runSplit
  by_cases h : (List.foldl splitWStep ([], []) l).2 = []
  · simp [h]
  · simp [h]

theorem pySplitW_append_wschar {c : Char} (a b : Str) (hc : pyIsSpace c = true) :
    pySplitW (a ++ c :: b) = pySplitW a ++ pySplitW b := by
  rw [pySplitW_run, pySplitW_run a, pySplitW_run b]
  have : a ++ c :: b = a ++ [c] ++ b := by simp
  rw [this, runSplit_append, runSplit_append]
  have hstep : runSplit (runSplit ([], []) a) [c] =
      ((runSplit ([], []) a).1 ++ emitWord (runSplit ([], []) a).2, []) := by
    show splitWStep ((runSplit ([], []) a).1, (runSplit ([], []) a).2) c = _
    exact splitWStep_ws hc _ _
  rw [hstep, runSplit_shift]
  simp

theorem pySplitW_ws_absorb {ws : Str} (b : Str) (h : ∀ c ∈ ws, pyIsSpace c = true) :
    pySplitW (ws ++ b) = pySplitW b := by
  cases hw : ws with
  | nil => simp
  | cons c rest =>
      rw [pySplitW_run, pySplitW_run b, runSplit_append,
        runSplit_allws (by simp) (hw ▸ h) [] [], runSplit_shift]
      simp [emitWord]

theorem pySplitW_word {w : Str} (hne : w ≠ []) (h : ∀ c ∈ w, pyIsSpace c = false) :
    pySplitW w = [w] := by
  rw [pySplitW_run, runSplit_nows h [] []]
  simp [emitWord, hne]

theorem runSplit_wf {l : Str} {d : List Str} {cur : Str}
    (hd : ∀ w ∈ d, w ≠ [] ∧ ∀ c ∈ w, pyIsSpace c = false)
    (hcur : ∀ c ∈ cur, pyIsSpace c = false) :
    (∀ w ∈ (runSplit (d, cur) l).1, w ≠ [] ∧ ∀ c ∈ w, pyIsSpace c = false) ∧
      (∀ c ∈ (runSplit (d, cur) l).2, pyIsSpace c = false) := by
  induction l generalizing d cur with
  | nil => exact ⟨hd, hcur⟩
  | cons c rest ih =>
      by_cases hc : pyIsSpace c
      · have hre : runSplit (d, cur) (c :: rest) = runSplit (d ++ emitWord cur, []) rest := by
          show runSplit (splitWStep (d, cur) c) rest = _
          rw [splitWStep_ws hc]
        simp only [hre]
        refine ih ?_ ?_
        · intro w hw
          rcases List.mem_append.mp hw with h1 | h2
          · exact hd w h1
          · unfold emitWord at h2
            by_cases hcur0 : cur = []
            · simp [hcur0] at h2
            · simp only [hcur0, if_false, List.mem_singleton] at h2
              subst h2
              exact ⟨hcur0, hcur⟩
        · intro x hx
          simp at hx
      · have hc' : pyIsSpace c = false := Bool.eq_false_iff.mpr hc
        have hre : runSplit (d, cur) (c :: rest) = runSplit (d, cur ++ [c]) rest := by
          show runSplit (splitWStep (d, cur) c) rest = _
          rw [splitWStep_nows hc']
        simp only [hre]
        refine ih hd ?_
        intro x hx
        rcases List.mem_append.mp hx with h1 | h2
        · exact hcur x h1
        · rw [List.mem_singleton] at h2
          subst h2
          exact hc'

theorem pySplitW_wf {l : Str} :
    ∀ w ∈ pySplitW l, w ≠ [] ∧ ∀ c ∈ w, pyIsSpace c = false := by
  intro w hw
  rw [pySplitW_run] at hw
  have := @runSplit_wf l [] []
    (by intro w hw; simp at hw) (by intro c hc; simp at hc)
  rcases List.mem_append.mp hw with h1 | h2
  · exact this.1 w h1
  · unfold emitWord at h2
    by_cases h0 : (runSplit ([], []) l).2 = []
    · simp [h0] at h2
    · simp only [h0, if_false, List.mem_singleton] at h2
      subst h2
      exact ⟨h0, this.2⟩

/-! ## Join and clean-text lemmas -/

theorem joinSp_cons (w : Str) {wsl : List Str} (h : wsl ≠ []) :
    joinSp (w :: wsl) = w ++ ' ' :: joinSp wsl := by
  cases wsl with
  | nil => exact absurd rfl h
  | cons a b => rfl

theorem joinSp_ne_nil {w : Str} (hw : w ≠ []) (wsl : List Str) :
    joinSp (w :: wsl) ≠ [] := by
  cases wsl with
  | nil => simpa [joinSp] using hw
  | cons a b => simp [joinSp_cons w (List.cons_ne_nil a b)]

theorem mem_joinSp {x : Char} {wsl : List Str} (h : x ∈ joinSp wsl) :
    (∃ w ∈ wsl, x ∈ w) ∨ x = ' ' := by
  induction wsl with
  | nil => simp [joinSp] at h
  | cons w rest ih =>
      cases rest with
      | nil => exact Or.inl ⟨w, List.mem_cons_self w [], h⟩
      | cons a b =>
          rw [joinSp_cons w (List.cons_ne_nil a b)] at h
          rcases List.mem_append.mp h with h1 | h2
          · exact Or.inl ⟨w, List.mem_cons_self w _, h1⟩
          · rcases List.mem_cons.mp h2 with h3 | h4
            · exact Or.inr h3
            · rcases ih h4 with ⟨w2, hw2, hx⟩ | hsp
              · exact Or.inl ⟨w2, List.mem_cons_of_mem w hw2, hx⟩
              · exact Or.inr hsp

theorem joinSp_head? {w : Str} (wsl : List Str) (hw : w ≠ []) :
    (joinSp (w :: wsl)).head? = w.head? := by
  cases wsl with
  | nil => rfl
  | cons a b =>
      cases w with
      | nil => exact absurd rfl hw
      | cons c w2 =>
          rw [joinSp_cons _ (List.cons_ne_nil a b)]
          rfl

theorem mem_of_getLast?_eq {l : Str} {c : Char} (h : l.getLast? = some c) : c ∈ l := by
  rw [← List.head?_reverse] at h
  have : c ∈ l.reverse.head? := by rw [h]; rfl
  exact List.mem_reverse.mp (List.mem_of_mem_head? this)

theorem joinSp_getLast?_mem {wsl : List Str} (hne : ∀ w ∈ wsl, w ≠ []) (h0 : wsl ≠ []) :
    ∃ w ∈ wsl, (joinSp wsl).getLast? = w.getLast? := by
  induction wsl with
  | nil => exact absurd rfl h0
  | cons w rest ih =>
      cases rest with
      | nil => exact ⟨w, List.mem_cons_self w [], rfl⟩
      | cons a b =>
          obtain ⟨w2, hw2, he⟩ :=
            ih (fun x hx => hne x (List.mem_cons_of_mem w hx)) (List.cons_ne_nil a b)
          refine ⟨w2, List.mem_cons_of_mem w hw2, ?_⟩
          rw [joinSp_cons w (List.cons_ne_nil a b), List.getLast?_append]
          have hj : joinSp (a :: b) ≠ [] := joinSp_ne_nil (hne a (by simp)) b
          have : (' ' :: joinSp (a :: b)).getLast? = (joinSp (a :: b)).getLast? := by
            have : ' ' :: joinSp (a :: b) = [' '] ++ joinSp (a :: b) := rfl
            rw [this, List.getLast?_append]
            cases hg : (joinSp (a :: b)).getLast? with
            | none =>
                rw [List.getLast?_eq_none_iff] at hg
                exact absurd hg hj
            | some x => rfl
          rw [this, he]
          cases hg : w2.getLast? with
          | none =>
              rw [List.getLast?_eq_none_iff] at hg
              exact absurd hg (hne w2 (List.mem_cons_of_mem w hw2))
          | some x => rfl

theorem head?_joinSp_false {wsl : List Str}
    (hwf : ∀ w ∈ wsl, w ≠ [] ∧ ∀ c ∈ w, pyIsSpace c = false) :
    ∀ c, (joinSp wsl).head? = some c → pyIsSpace c = false := by
  intro c hc
  cases wsl with
  | nil => simp [joinSp] at hc
  | cons w rest =>
      rw [joinSp_head? rest (hwf w (List.mem_cons_self w rest)).1] at hc
      have : c ∈ w := List.mem_of_mem_head? (by rw [hc]; rfl)
      exact (hwf w (List.mem_cons_self w rest)).2 c this

theorem getLast?_joinSp_false {wsl : List Str}
    (hwf : ∀ w ∈ wsl, w ≠ [] ∧ ∀ c ∈ w, pyIsSpace c = false) :
    ∀ c, (joinSp wsl).getLast? = some c → pyIsSpace c = false := by
  intro c hc
  cases wsl with
  | nil => simp [joinSp] at hc
  | cons w rest =>
      obtain ⟨w2, hw2, he⟩ := joinSp_getLast?_mem
        (fun x hx => (hwf x hx).1) (List.cons_ne_nil w rest)
      rw [he] at hc
      exact (hwf w2 hw2).2 c (mem_of_getLast?_eq hc)

theorem stripL_joinSp_wf {wsl : List Str}
    (hwf : ∀ w ∈ wsl, w ≠ [] ∧ ∀ c ∈ w, pyIsSpace c = false) :
    stripL (joinSp wsl) = joinSp wsl :=
  stripL_eq_self_of_ends (head?_joinSp_false hwf) (getLast?_joinSp_false hwf)

theorem pySplitW_joinSp {wsl : List Str}
    (hwf : ∀ w ∈ wsl, w ≠ [] ∧ ∀ c ∈ w, pyIsSpace c = false) :
    pySplitW (joinSp wsl) = wsl := by
  induction wsl with
  | nil => rfl
  | cons w rest ih =>
      cases rest with
      | nil =>
          exact pySplitW_word (hwf w (List.mem_cons_self w [])).1
            (hwf w (List.mem_cons_self w [])).2
      | cons a b =>
          rw [joinSp_cons w (List.cons_ne_nil a b),
            pySplitW_append_wschar w (joinSp (a :: b)) (by decide),
            pySplitW_word (hwf w (List.mem_cons_self w _)).1
              (hwf w (List.mem_cons_self w _)).2,
            ih fun x hx => hwf x (List.mem_cons_of_mem w hx)]
          rfl

theorem pySplitW_cleanWs (t : Str) : pySplitW (cleanWs t) = pySplitW t :=
  pySplitW_joinSp fun w hw => pySplitW_wf w hw

theorem cleanWs_idem (t : Str) : cleanWs (cleanWs t) = cleanWs t := by
  show joinSp (pySplitW (cleanWs t)) = cleanWs t
  rw [pySplitW_cleanWs]
  rfl

theorem stripL_cleanWs (t : Str) : stripL (cleanWs t) = cleanWs t :=
  stripL_joinSp_wf fun w hw => pySplitW_wf w hw

theorem runSplit_chars {x : Char} {l : Str} :
    ∀ {d : List Str} {cur : Str}, (∀ w ∈ d, x ∉ w) → x ∉ cur → x ∉ l →
    (∀ w ∈ (runSplit (d, cur) l).1, x ∉ w) ∧ x ∉ (runSplit (d, cur) l).2 := by
  induction l with
  | nil => exact fun hd hcur _ => ⟨hd, hcur⟩
  | cons c rest ih =>
      intro d cur hd hcur hl
      have hcx : x ≠ c := fun h => hl (h ▸ List.mem_cons_self x rest)
      have hrest : x ∉ rest := fun h => hl (List.mem_cons_of_mem c h)
      by_cases hc : pyIsSpace c
      · have hre : runSplit (d, cur) (c :: rest) = runSplit (d ++ emitWord cur, []) rest := by
          show runSplit (splitWStep (d, cur) c) rest = _
          rw [splitWStep_ws hc]
        simp only [hre]
        refine ih ?_ (by simp) hrest
        intro w hw
        rcases List.mem_append.mp hw with h1 | h2
        · exact hd w h1
        · unfold emitWord at h2
          by_cases h0 : cur = []
          · simp [h0] at h2
          · simp only [h0, if_false, List.mem_singleton] at h2
            subst h2
            exact hcur
      · have hc2 : pyIsSpace c = false := Bool.eq_false_iff.mpr hc
        have hre : runSplit (d, cur) (c :: rest) = runSplit (d, cur ++ [c]) rest := by
          show runSplit (splitWStep (d, cur) c) rest = _
          rw [splitWStep_nows hc2]
        simp only [hre]
        refine ih hd ?_ hrest
        intro hmem
        rcases List.mem_append.mp hmem with h1 | h2
        · exact hcur h1
        · exact hcx (List.mem_singleton.mp h2)

theorem not_mem_pySplitW {x : Char} {l : Str} (hl : x ∉ l) :
    ∀ w ∈ pySplitW l, x ∉ w := by
  intro w hw
  rw [pySplitW_run] at hw
  have h := @runSplit_chars x l [] []
    (by intro w hw; simp at hw) (by simp) hl
  rcases List.mem_append.mp hw with h1 | h2
  · exact h.1 w h1
  · unfold emitWord at h2
    by_cases h0 : (runSplit ([], []) l).2 = []
    · simp [h0] at h2
    · simp only [h0, if_false, List.mem_singleton] at h2
      subst h2
      exact h.2

theorem not_mem_cleanWs {x : Char} {t : Str} (hx : x ∉ t) (hxs : x ≠ ' ') :
    x ∉ cleanWs t := by
  intro h
  rcases mem_joinSp h with ⟨w, hw, hxw⟩ | hsp
  · exact not_mem_pySplitW hx w hw hxw
  · exact hxs hsp

theorem runSplit_keeps_ne (l : Str) :
    ∀ (d : List Str) (cur : Str), (d ≠ [] ∨ cur ≠ []) →
    (runSplit (d, cur) l).1 ++ emitWord (runSplit (d, cur) l).2 ≠ [] := by
  induction l with
  | nil =>
      intro d cur h
      show d ++ emitWord cur ≠ []
      rcases h with h | h
      · intro he
        exact h (List.append_eq_nil.mp he).1
      · unfold emitWord
        simp only [h, if_false]
        intro he
        exact List.cons_ne_nil cur [] (List.append_eq_nil.mp he).2
  | cons c rest ih =>
      intro d cur h
      by_cases hc : pyIsSpace c
      · have hre : runSplit (d, cur) (c :: rest) = runSplit (d ++ emitWord cur, []) rest := by
          show runSplit (splitWStep (d, cur) c) rest = _
          rw [splitWStep_ws hc]
        simp only [hre]
        refine ih _ _ (Or.inl ?_)
        rcases h with h | h
        · intro he
          exact h (List.append_eq_nil.mp he).1
        · unfold emitWord
          simp only [h, if_false]
          intro he
          exact List.cons_ne_nil cur [] (List.append_eq_nil.mp he).2
      · have hc2 : pyIsSpace c = false := Bool.eq_false_iff.mpr hc
        have hre : runSplit (d, cur) (c :: rest) = runSplit (d, cur ++ [c]) rest := by
          show runSplit (splitWStep (d, cur) c) rest = _
          rw [splitWStep_nows hc2]
        simp only [hre]
        exact ih _ _ (Or.inr (by simp))

theorem pySplitW_of_not_allws {l : Str} (h : ¬ ∀ c ∈ l, pyIsSpace c = true) :
    pySplitW l ≠ [] := by
  induction l with
  | nil => exact absurd (by intro c hc; simp at hc) h
  | cons c rest ih =>
      by_cases hc : pyIsSpace c
      · have : pySplitW (c :: rest) = pySplitW rest := by
          have : c :: rest = [c] ++ rest := rfl
          rw [this, pySplitW_ws_absorb rest (by intro x hx; rw [List.mem_singleton.mp hx]; exact hc)]
        rw [this]
        refine ih fun hall => h ?_
        intro x hx
        rcases List.mem_cons.mp hx with h1 | h2
        · rw [h1]; exact hc
        · exact hall x h2
      · have hc2 : pyIsSpace c = false := Bool.eq_false_iff.mpr hc
        rw [pySplitW_run]
        have hre : runSplit ([], []) (c :: rest) = runSplit ([], [c]) rest := by
          show runSplit (splitWStep ([], []) c) rest = _
          rw [splitWStep_nows hc2]
          rfl
        rw [hre]
        exact runSplit_keeps_ne rest [] [c] (Or.inr (List.cons_ne_nil c []))

theorem cleanWs_eq_nil_of_strip (t : Str) (h : stripL t = []) : cleanWs t = [] := by
  have : pySplitW t = [] := by
    rcases hnil : pySplitW t with _ | ⟨w, rest⟩
    · rfl
    · have hw := pySplitW_wf w (hnil ▸ List.mem_cons_self w rest)
      obtain ⟨c, hc⟩ := List.exists_mem_of_ne_nil w hw.1
      have h1 : c ∈ t := by
        by_contra hmem
        exact not_mem_pySplitW hmem w (hnil ▸ List.mem_cons_self w rest) hc
      have := stripL_eq_nil_iff.mp h c h1
      rw [hw.2 c hc] at this
      exact Bool.noConfusion this
  unfold cleanWs
  rw [this]
  rfl

theorem cleanWs_ne_nil {t : Str} (h : stripL t ≠ []) : cleanWs t ≠ [] := by
  have hsplit : pySplitW t ≠ [] := by
    refine pySplitW_of_not_allws fun hall => h (stripL_eq_nil_iff.mpr hall)
  rcases hnil : pySplitW t with _ | ⟨w, rest⟩
  · exact absurd hnil hsplit
  · unfold cleanWs
    rw [hnil]
    exact joinSp_ne_nil (pySplitW_wf w (hnil ▸ List.mem_cons_self w rest)).1 rest

/-! ## Wrap lemmas -/

theorem greedyFill_flatten (width : Nat) (ws : List Str) :
    ∀ cur, (greedyFill width cur ws).flatten = cur ++ ws := by
  induction ws with
  | nil => intro cur; simp [greedyFill]
  | cons w ws2 ih =>
      intro cur
      unfold greedyFill
      by_cases h : (joinSp (cur ++ [w])).length ≤ width
      · rw [if_pos h, ih]
        simp
      · rw [if_neg h]
        simp only [List.flatten_cons, ih]
        simp

theorem wrapGroups_flatten (width : Nat) (ws : List Str) :
    (wrapGroups width ws).flatten = ws := by
  cases ws with
  | nil => rfl
  | cons w ws2 =>
      show (greedyFill width [w] ws2).flatten = _
      rw [greedyFill_flatten]
      rfl

theorem greedyFill_ne_nil (width : Nat) (ws : List Str) :
    ∀ cur, cur ≠ [] → ∀ g ∈ greedyFill width cur ws, g ≠ [] := by
  induction ws with
  | nil =>
      intro cur hcur g hg
      rw [greedyFill, List.mem_singleton] at hg
      exact hg ▸ hcur
  | cons w ws2 ih =>
      intro cur hcur g hg
      unfold greedyFill at hg
      by_cases h : (joinSp (cur ++ [w])).length ≤ width
      · rw [if_pos h] at hg
        exact ih _ (by simp) g hg
      · rw [if_neg h] at hg
        rcases List.mem_cons.mp hg with h1 | h2
        · exact h1 ▸ hcur
        · exact ih _ (List.cons_ne_nil w []) g h2

theorem wrapGroups_ne_nil (width : Nat) (ws : List Str) :
    ∀ g ∈ wrapGroups width ws, g ≠ [] := by
  cases ws with
  | nil => intro g hg; simp [wrapGroups] at hg
  | cons w ws2 => exact greedyFill_ne_nil width ws2 [w] (List.cons_ne_nil w [])

theorem mem_of_mem_wrapGroups (width : Nat) {ws : List Str} {g : List Str} {w : Str}
    (hg : g ∈ wrapGroups width ws) (hw : w ∈ g) : w ∈ ws := by
  rw [← wrapGroups_flatten width ws]
  exact List.mem_flatten.mpr ⟨g, hg, hw⟩

theorem indentN_all_space (lvl : Nat) : ∀ c ∈ indentN lvl, pyIsSpace c = true := by
  intro c hc
  rw [indentN, List.mem_replicate] at hc
  rw [hc.2]
  decide

theorem joinWrapped_cons (lvl : Nat) (w : Str) {wsl : List Str} (h : wsl ≠ []) :
    joinWrapped lvl (w :: wsl) = w ++ '\n' :: (indentN lvl ++ joinWrapped lvl wsl) := by
  cases wsl with
  | nil => exact absurd rfl h
  | cons a b => rfl

theorem mem_joinWrapped {x : Char} {lvl : Nat} {wsl : List Str}
    (h : x ∈ joinWrapped lvl wsl) :
    (∃ w ∈ wsl, x ∈ w) ∨ x = '\n' ∨ x = ' ' := by
  induction wsl with
  | nil => simp [joinWrapped] at h
  | cons w rest ih =>
      cases rest with
      | nil => exact Or.inl ⟨w, List.mem_cons_self w [], h⟩
      | cons a b =>
          rw [joinWrapped_cons lvl w (List.cons_ne_nil a b)] at h
          rcases List.mem_append.mp h with h1 | h2
          · exact Or.inl ⟨w, List.mem_cons_self w _, h1⟩
          · rcases List.mem_cons.mp h2 with h3 | h4
            · exact Or.inr (Or.inl h3)
            · rcases List.mem_append.mp h4 with h5 | h6
              · have := indentN_all_space lvl x h5
                right; right
                rw [indentN, List.mem_replicate] at h5
                exact h5.2
              · rcases ih h6 with ⟨w2, hw2, hx⟩ | hrest
                · exact Or.inl ⟨w2, List.mem_cons_of_mem w hw2, hx⟩
                · exact Or.inr hrest

theorem joinWrapped_ne_nil {w : Str} (lvl : Nat) (hw : w ≠ []) (wsl : List Str) :
    joinWrapped lvl (w :: wsl) ≠ [] := by
  cases wsl with
  | nil => simpa [joinWrapped] using hw
  | cons a b => simp [joinWrapped_cons lvl w (List.cons_ne_nil a b)]

theorem joinWrapped_head? {w : Str} (lvl : Nat) (wsl : List Str) (hw : w ≠ []) :
    (joinWrapped lvl (w :: wsl)).head? = w.head? := by
  cases wsl with
  | nil => rfl
  | cons a b =>
      cases w with
      | nil => exact absurd rfl hw
      | cons c w2 =>
          rw [joinWrapped_cons _ _ (List.cons_ne_nil a b)]
          rfl

theorem joinWrapped_getLast?_mem {lvl : Nat} {wsl : List Str}
    (hne : ∀ w ∈ wsl, w ≠ []) (h0 : wsl ≠ []) :
    ∃ w ∈ wsl, (joinWrapped lvl wsl).getLast? = w.getLast? := by
  induction wsl with
  | nil => exact absurd rfl h0
  | cons w rest ih =>
      cases rest with
      | nil => exact ⟨w, List.mem_cons_self w [], rfl⟩
      | cons a b =>
          obtain ⟨w2, hw2, he⟩ :=
            ih (fun x hx => hne x (List.mem_cons_of_mem w hx)) (List.cons_ne_nil a b)
          refine ⟨w2, List.mem_cons_of_mem w hw2, ?_⟩
          rw [joinWrapped_cons lvl w (List.cons_ne_nil a b), List.getLast?_append]
          have hj : joinWrapped lvl (a :: b) ≠ [] :=
            joinWrapped_ne_nil lvl (hne a (by simp)) b
          have hlast : ('\n' :: (indentN lvl ++ joinWrapped lvl (a :: b))).getLast? =
              (joinWrapped lvl (a :: b)).getLast? := by
            have h1 : '\n' :: (indentN lvl ++ joinWrapped lvl (a :: b)) =
                ('\n' :: indentN lvl) ++ joinWrapped lvl (a :: b) := by simp
            rw [h1, List.getLast?_append]
            cases hg : (joinWrapped lvl (a :: b)).getLast? with
            | none =>
                rw [List.getLast?_eq_none_iff] at hg
                exact absurd hg hj
            | some x => rfl
          rw [hlast, he]
          cases hg : w2.getLast? with
          | none =>
              rw [List.getLast?_eq_none_iff] at hg
              exact absurd hg (hne w2 (List.mem_cons_of_mem w hw2))
          | some x => rfl

theorem pySplitW_joinWrapped (lvl : Nat) (wsl : List Str) :
    pySplitW (joinWrapped lvl wsl) = (wsl.map pySplitW).flatten := by
  induction wsl with
  | nil => rfl
  | cons w rest ih =>
      cases rest with
      | nil => simp [joinWrapped]
      | cons a b =>
          rw [joinWrapped_cons lvl w (List.cons_ne_nil a b),
            pySplitW_append_wschar w _ (by decide),
            pySplitW_ws_absorb _ (indentN_all_space lvl), ih]
          simp

theorem pySplitW_renderedText (level : Nat) (t : Str) :
    pySplitW (renderedText level t) = pySplitW t := by
  unfold renderedText
  by_cases h : MAX_WIDTH < (cleanWs t).length
  · rw [if_pos h]
    unfold wrapText
    rw [pySplitW_joinWrapped, List.map_map]
    have hmap : ∀ g ∈ wrapGroups MAX_WIDTH (pySplitW (cleanWs t)),
        (pySplitW ∘ joinSp) g = g := fun g hg =>
      pySplitW_joinSp fun w hw => pySplitW_wf w (mem_of_mem_wrapGroups MAX_WIDTH hg hw)
    rw [List.map_congr_left hmap]
    show (List.map id _).flatten = _
    rw [List.map_id, wrapGroups_flatten, pySplitW_cleanWs]
  · rw [if_neg h]
    exact pySplitW_cleanWs t

theorem cleanWs_renderedText (level : Nat) (t : Str) :
    cleanWs (renderedText level t) = cleanWs t := by
  unfold cleanWs
  rw [pySplitW_renderedText]

/-! ## Tokenizer stepping lemmas and invariants -/

theorem runTok_append (st : TokSt) (a b : Str) :
    runTok st (a ++ b) = runTok (runTok st a) b :=
  List.foldl_append ..

theorem tokStep_text_lt (toks : List Str) (acc : Str) :
    tokStep ⟨toks, .text acc⟩ '<' = ⟨toks ++ emitText acc, .tag ['<']⟩ := by
  simp [tokStep]

theorem tokStep_text_other {c : Char} (hc : c ≠ '<') (toks : List Str) (acc : Str) :
    tokStep ⟨toks, .text acc⟩ c = ⟨toks, .text (acc ++ [c])⟩ := by
  simp [tokStep, hc]

theorem tokStep_tag_gt (toks : List Str) (acc : Str) :
    tokStep ⟨toks, .tag acc⟩ '>' = ⟨toks ++ [acc ++ ['>']], .text []⟩ := by
  simp [tokStep]

theorem tokStep_tag_other {c : Char} (hc : c ≠ '>') (toks : List Str) (acc : Str) :
    tokStep ⟨toks, .tag acc⟩ c = ⟨toks, .tag (acc ++ [c])⟩ := by
  simp [tokStep, hc]

theorem runTok_text {s : Str} (h : '<' ∉ s) (toks : List Str) (acc : Str) :
    runTok ⟨toks, .text acc⟩ s = ⟨toks, .text (acc ++ s)⟩ := by
  induction s generalizing acc with
  | nil => simp [runTok]
  | cons c rest ih =>
      have hc : c ≠ '<' := fun h2 => h (h2 ▸ List.mem_cons_self c rest)
      show runTok (tokStep ⟨toks, .text acc⟩ c) rest = _
      rw [tokStep_text_other hc, ih (fun h2 => h (List.mem_cons_of_mem c h2)),
        List.append_assoc]
      rfl

theorem runTok_tag {s : Str} (h : '>' ∉ s) (toks : List Str) (acc : Str) :
    runTok ⟨toks, .tag acc⟩ s = ⟨toks, .tag (acc ++ s)⟩ := by
  induction s generalizing acc with
  | nil => simp [runTok]
  | cons c rest ih =>
      have hc : c ≠ '>' := fun h2 => h (h2 ▸ List.mem_cons_self c rest)
      show runTok (tokStep ⟨toks, .tag acc⟩ c) rest = _
      rw [tokStep_tag_other hc, ih (fun h2 => h (List.mem_cons_of_mem c h2)),
        List.append_assoc]
      rfl

theorem runTok_consume_tag {mid : Str} (h : '>' ∉ mid) (toks : List Str) (acc : Str) :
    runTok ⟨toks, .text acc⟩ ('<' :: mid ++ ['>']) =
      ⟨toks ++ emitText acc ++ ['<' :: mid ++ ['>']], .text []⟩ := by
  show runTok (tokStep ⟨toks, .text acc⟩ '<') (mid ++ ['>']) = _
  rw [tokStep_text_lt, runTok_append, runTok_tag h]
  show tokStep ⟨toks ++ emitText acc, .tag ('<' :: mid)⟩ '>' = _
  rw [tokStep_tag_gt]

theorem tagTok_isLt {t : Str} (h : tagTok t) : isLtStart t = true := by
  obtain ⟨mid, hm, _⟩ := h
  rw [hm]
  rfl

theorem textTok_not_isLt {t : Str} (h : textTok t) : isLtStart t = false := by
  obtain ⟨hne, hmem, _⟩ := h
  cases t with
  | nil => rfl
  | cons c rest =>
      cases hc : isLtStart (c :: rest) with
      | false => rfl
      | true =>
          have : c = '<' := by
            unfold isLtStart at hc
            by_cases h2 : c = '<'
            · exact h2
            · cases c
              simp_all [isLtStart]
          exact absurd (this ▸ List.mem_cons_self c rest) hmem

theorem textTok_not_tagTok {t : Str} (h : textTok t) (h2 : tagTok t) : False := by
  have := tagTok_isLt h2
  rw [textTok_not_isLt h] at this
  exact Bool.noConfusion this

theorem headNotText_of_append_tag {rest : List Str} {t : Str} (h : headNotText rest)
    (ht : tagTok t) : headNotText (rest ++ [t]) := by
  cases rest with
  | nil => exact tagTok_isLt ht
  | cons a b => exact h

theorem WFT_append_tag {xs : List Str} {t : Str} (hw : WFT xs) (ht : tagTok t) :
    WFT (xs ++ [t]) := by
  induction hw with
  | nil => exact WFT.tag ht WFT.nil
  | tag h _ ih => exact WFT.tag h ih
  | txt h hn _ ih => exact WFT.txt h (headNotText_of_append_tag hn ht) ih

theorem WFT_append_txt {xs : List Str} {t : Str} (hw : WFT xs) (ht : textTok t)
    (hl : xs = [] ∨ ∃ u, xs.getLast? = some u ∧ tagTok u) : WFT (xs ++ [t]) := by
  induction hw with
  | nil => exact WFT.txt ht trivial WFT.nil
  | @tag x rest hx hrest ih =>
      rcases hl with h0 | ⟨u, hu, htu⟩
      · exact absurd h0 (List.cons_ne_nil x rest)
      · cases rest with
        | nil =>
            exact WFT.tag hx (WFT.txt ht trivial WFT.nil)
        | cons a b =>
            refine WFT.tag hx (ih (Or.inr ⟨u, ?_, htu⟩))
            rwa [List.getLast?_cons_cons] at hu
  | @txt x rest hx hn hrest ih =>
      rcases hl with h0 | ⟨u, hu, htu⟩
      · exact absurd h0 (List.cons_ne_nil x rest)
      · cases rest with
        | nil =>
            simp only [List.getLast?_singleton, Option.some.injEq] at hu
            exact absurd (hu ▸ htu) fun hh => textTok_not_tagTok hx hh
        | cons a b =>
            have hu2 : (a :: b).getLast? = some u := by
              rwa [List.getLast?_cons_cons] at hu
            refine WFT.txt hx ?_ (ih (Or.inr ⟨u, hu2, htu⟩))
            cases b with
            | nil => exact hn
            | cons a2 b2 => exact hn

theorem stInv_step {st : TokSt} (h : stInv st) (c : Char) : stInv (tokStep st c) := by
  obtain ⟨toks, mode⟩ := st
  cases mode with
  | text acc =>
      obtain ⟨hw, hacc, hlast⟩ := h
      by_cases hc : c = '<'
      · subst hc
        rw [tokStep_text_lt]
        show WFT (toks ++ emitText acc) ∧ _
        refine ⟨?_, ⟨[], rfl, by simp⟩⟩
        unfold emitText
        by_cases h0 : stripL acc = []
        · rw [if_pos h0]
          simpa using hw
        · rw [if_neg h0]
          refine WFT_append_txt hw ⟨h0, ?_, stripL_idem acc⟩ hlast
          intro hmem
          exact hacc (mem_stripL hmem)
      · rw [tokStep_text_other hc]
        refine ⟨hw, ?_, hlast⟩
        intro hmem
        rcases List.mem_append.mp hmem with h3 | h4
        · exact hacc h3
        · exact hc (List.mem_singleton.mp h4).symm
  | tag acc =>
      obtain ⟨hw, mid, hmid, hgt⟩ := h
      by_cases hc : c = '>'
      · subst hc
        rw [tokStep_tag_gt]
        have htk : tagTok (acc ++ ['>']) := ⟨mid, by rw [hmid], hgt⟩
        refine ⟨WFT_append_tag hw htk, by simp, Or.inr ⟨acc ++ ['>'], ?_, htk⟩⟩
        show (toks ++ [acc ++ ['>']]).getLast? = _
        rw [List.getLast?_concat]
      · rw [tokStep_tag_other hc]
        refine ⟨hw, mid ++ [c], by rw [hmid]; rfl, ?_⟩
        intro hmem
        rcases List.mem_append.mp hmem with h3 | h4
        · exact hgt h3
        · exact hc (List.mem_singleton.mp h4).symm

theorem stInv_run {st : TokSt} (h : stInv st) (l : Str) : stInv (runTok st l) := by
  induction l generalizing st with
  | nil => exact h
  | cons c rest ih =>
      show stInv (runTok (tokStep st c) rest)
      exact ih (stInv_step h c)

theorem WFT_finTok {st : TokSt} (h : stInv st) : WFT (finTok st) := by
  obtain ⟨toks, mode⟩ := st
  cases mode with
  | text acc =>
      obtain ⟨hw, hacc, hlast⟩ := h
      show WFT (toks ++ emitText acc)
      unfold emitText
      by_cases h0 : stripL acc = []
      · rw [if_pos h0]
        simpa using hw
      · rw [if_neg h0]
        refine WFT_append_txt hw ⟨h0, ?_, stripL_idem acc⟩ hlast
        intro hmem
        exact hacc (mem_stripL hmem)
  | tag acc => exact h.1

theorem getTokens_WFT (l : Str) : WFT (getTokens l) := by
  unfold getTokens
  have h0 : stInv ⟨[], TMode.text []⟩ := ⟨WFT.nil, by simp, Or.inl rfl⟩
  exact WFT_finTok (stInv_run h0 l)

/-! ## Wellformedness of rendered tokens -/

theorem WFT_tail {t : Str} {rest : List Str} (h : WFT (t :: rest)) : WFT rest := by
  cases h with
  | tag _ h2 => exact h2
  | txt _ _ h2 => exact h2

theorem WFT_head_tag {t : Str} {rest : List Str} (h : WFT (t :: rest))
    (hlt : isLtStart t = true) : tagTok t := by
  cases h with
  | tag h2 _ => exact h2
  | txt h2 _ _ =>
      rw [textTok_not_isLt h2] at hlt
      exact Bool.noConfusion hlt

theorem WFT_head_txt {t : Str} {rest : List Str} (h : WFT (t :: rest))
    (hlt : isLtStart t = false) : textTok t ∧ headNotText rest := by
  cases h with
  | tag h2 _ =>
      rw [tagTok_isLt h2] at hlt
      exact Bool.noConfusion hlt
  | txt h2 h3 _ => exact ⟨h2, h3⟩

theorem emitText_nil : emitText [] = [] := rfl

theorem emitText_append_ws {ws : Str} (acc : Str) (h : ∀ c ∈ ws, pyIsSpace c = true) :
    emitText (acc ++ ws) = emitText acc := by
  unfold emitText
  rw [stripL_ws_right acc h]

theorem newline_indent_ws (lvl : Nat) : ∀ c ∈ '\n' :: indentN lvl, pyIsSpace c = true := by
  intro c hc
  rcases List.mem_cons.mp hc with h1 | h2
  · rw [h1]; decide
  · exact indentN_all_space lvl c h2

theorem not_lt_indentN (lvl : Nat) : '<' ∉ indentN lvl := by
  intro h
  rw [indentN, List.mem_replicate] at h
  exact absurd h.2 (by decide)

theorem greedyFill_ne_nil_out (width : Nat) (ws : List Str) :
    ∀ cur, greedyFill width cur ws ≠ [] := by
  induction ws with
  | nil => intro cur; simp [greedyFill]
  | cons w ws2 ih =>
      intro cur
      unfold greedyFill
      by_cases h : (joinSp (cur ++ [w])).length ≤ width
      · rw [if_pos h]
        exact ih _
      · rw [if_neg h]
        exact List.cons_ne_nil _ _

theorem wrapText_ne_nil {width : Nat} {t : Str} (h : pySplitW t ≠ []) :
    wrapText width t ≠ [] := by
  unfold wrapText
  cases hw : pySplitW t with
  | nil => exact absurd hw h
  | cons w ws2 =>
      show (greedyFill width [w] ws2).map joinSp ≠ []
      intro hmap
      exact greedyFill_ne_nil_out width ws2 [w] (List.map_eq_nil_iff.mp hmap)

theorem wrapText_line_wf {width : Nat} {t : Str} :
    ∀ w ∈ wrapText width t, w ≠ [] ∧
      (∀ c, w.head? = some c → pyIsSpace c = false) ∧
      (∀ c, w.getLast? = some c → pyIsSpace c = false) := by
  intro w hw
  unfold wrapText at hw
  obtain ⟨g, hg, hjoin⟩ := List.mem_map.mp hw
  have hwords : ∀ x ∈ g, x ≠ [] ∧ ∀ c ∈ x, pyIsSpace c = false :=
    fun x hx => pySplitW_wf x (mem_of_mem_wrapGroups width hg hx)
  subst hjoin
  have hgne : g ≠ [] := wrapGroups_ne_nil width (pySplitW t) g hg
  refine ⟨?_, head?_joinSp_false hwords, getLast?_joinSp_false hwords⟩
  cases g with
  | nil => exact absurd rfl hgne
  | cons x g2 => exact joinSp_ne_nil (hwords x (List.mem_cons_self x g2)).1 g2

theorem not_lt_wrapText {width : Nat} {t : Str} (h : '<' ∉ t) :
    ∀ w ∈ wrapText width t, '<' ∉ w := by
  intro w hw hmem
  unfold wrapText at hw
  obtain ⟨g, hg, hjoin⟩ := List.mem_map.mp hw
  subst hjoin
  rcases mem_joinSp hmem with ⟨x, hx, hcx⟩ | hsp
  · exact not_mem_pySplitW h x (mem_of_mem_wrapGroups width hg hx) hcx
  · exact absurd hsp (by decide)

theorem joinWrapped_strip {lvl : Nat} {wsl : List Str}
    (hwf : ∀ w ∈ wsl, w ≠ [] ∧
      (∀ c, w.head? = some c → pyIsSpace c = false) ∧
      (∀ c, w.getLast? = some c → pyIsSpace c = false)) :
    stripL (joinWrapped lvl wsl) = joinWrapped lvl wsl := by
  cases wsl with
  | nil => rfl
  | cons w rest =>
      refine stripL_eq_self_of_ends ?_ ?_
      · intro c hc
        rw [joinWrapped_head? lvl rest (hwf w (List.mem_cons_self w rest)).1] at hc
        exact (hwf w (List.mem_cons_self w rest)).2.1 c hc
      · intro c hc
        obtain ⟨w2, hw2, he⟩ := joinWrapped_getLast?_mem
          (fun x hx => (hwf x hx).1) (List.cons_ne_nil w rest)
        rw [he] at hc
        exact (hwf w2 hw2).2.2 c hc

theorem renderedText_textTok {t : Str} (h : textTok t) (level : Nat) :
    textTok (renderedText level t) := by
  obtain ⟨hne, hlt, hstrip⟩ := h
  have hst : stripL t ≠ [] := by rwa [hstrip]
  unfold renderedText
  by_cases hb : MAX_WIDTH < (cleanWs t).length
  · rw [if_pos hb]
    have hsplit : pySplitW (cleanWs t) ≠ [] := by
      rw [pySplitW_cleanWs]
      intro h0
      have : cleanWs t = [] := by unfold cleanWs; rw [h0]; rfl
      rw [this] at hb
      simp [MAX_WIDTH] at hb
    have hlines := @wrapText_line_wf MAX_WIDTH (cleanWs t)
    have hlt2 : '<' ∉ cleanWs t := not_mem_cleanWs hlt (by decide)
    cases hl : wrapText MAX_WIDTH (cleanWs t) with
    | nil => exact absurd hl (wrapText_ne_nil hsplit)
    | cons w wrest =>
        refine ⟨?_, ?_, ?_⟩
        · exact joinWrapped_ne_nil (level + 1)
            (hlines w (hl ▸ List.mem_cons_self w wrest)).1 wrest
        · intro hmem
          rcases mem_joinWrapped hmem with ⟨w2, hw2, hx⟩ | hnl | hsp
          · exact not_lt_wrapText hlt2 w2 (hl ▸ hw2) hx
          · exact absurd hnl (by decide)
          · exact absurd hsp (by decide)
        · exact hl ▸ joinWrapped_strip (fun x hx => hlines x (hl ▸ hx))
  · rw [if_neg hb]
    exact ⟨cleanWs_ne_nil hst, not_mem_cleanWs hlt (by decide), stripL_cleanWs t⟩

theorem flat_glue (lvl : Nat) {wsl : List Str} (h : wsl ≠ []) :
    (wsl.map (fun w => '\n' :: (indentN lvl ++ w))).flatten =
      '\n' :: (indentN lvl ++ joinWrapped lvl wsl) := by
  induction wsl with
  | nil => exact absurd rfl h
  | cons w rest ih =>
      cases rest with
      | nil => simp [joinWrapped]
      | cons a b =>
          rw [List.map_cons, List.flatten_cons, ih (List.cons_ne_nil a b),
            joinWrapped_cons lvl w (List.cons_ne_nil a b)]
          simp

/-! ## Uniform unfolding lemmas and entry helpers -/

theorem isClose_imp_isLt {t : Str} (h : isCloseStart t = true) : isLtStart t = true := by
  cases t with
  | nil => exact Bool.noConfusion h
  | cons c rest =>
      cases rest with
      | nil =>
          unfold isCloseStart at h
          by_cases hc : c = '<'
          · rw [hc]; rfl
          · exact absurd h (by cases c; simp [isCloseStart])
      | cons d rest2 =>
          unfold isCloseStart at h
          unfold isLtStart
          by_cases hc : c = '<'
          · rw [hc]; rfl
          · exact absurd h (by simp_all [isCloseStart])

theorem not_isLt_not_isClose {t : Str} (h : isLtStart t = false) :
    isCloseStart t = false := by
  cases hcl : isCloseStart t with
  | false => rfl
  | true => rw [isClose_imp_isLt hcl] at h; exact Bool.noConfusion h

theorem formatTokens_cons_close {t : Str} (X : List Str) (level : Nat)
    (h : isCloseStart t = true) :
    formatTokens (t :: X) level = (indentN (level - 1) ++ t) :: formatTokens X (level - 1) := by
  match X with
  | [] => simp [formatTokens, h]
  | [x] => simp [formatTokens, h]
  | x :: y :: z => simp [formatTokens, h]

theorem formatTokens_cons_text {t : Str} (X : List Str) (level : Nat)
    (h : isLtStart t = false) :
    formatTokens (t :: X) level = (indentN level ++ stripL t) :: formatTokens X level := by
  have hcl := not_isLt_not_isClose h
  match X with
  | [] => simp [formatTokens, h, hcl]
  | [x] => simp [formatTokens, h, hcl]
  | x :: y :: z => simp [formatTokens, h, hcl]

theorem cleanToksL_cons_close {t : Str} (X : List Str) (level : Nat)
    (h : isCloseStart t = true) :
    cleanToksL (t :: X) level = t :: cleanToksL X (level - 1) := by
  match X with
  | [] => simp [cleanToksL, h]
  | [x] => simp [cleanToksL, h]
  | x :: y :: z => simp [cleanToksL, h]

theorem cleanToksL_cons_text {t : Str} (X : List Str) (level : Nat)
    (h : isLtStart t = false) :
    cleanToksL (t :: X) level = stripL t :: cleanToksL X level := by
  have hcl := not_isLt_not_isClose h
  match X with
  | [] => simp [cleanToksL, h, hcl]
  | [x] => simp [cleanToksL, h, hcl]
  | x :: y :: z => simp [cleanToksL, h, hcl]

theorem not_lt_newline_indent (lvl : Nat) : '<' ∉ '\n' :: indentN lvl := by
  intro h
  rcases List.mem_cons.mp h with h1 | h2
  · exact absurd h1 (by decide)
  · exact not_lt_indentN lvl h2

theorem master_tag_entry {t : Str} {rest : List Str} {level : Nat} (lvlE lvl2 : Nat)
    (hlt : isLtStart t = true)
    (hfmt : formatTokens (t :: rest) level = (indentN lvlE ++ t) :: formatTokens rest lvl2)
    (hcln : cleanToksL (t :: rest) level = t :: cleanToksL rest lvl2)
    (ih : Master rest lvl2) : Master (t :: rest) level := by
  intro toks acc hwft hacc hpend
  obtain ⟨mid, hmid, hgt⟩ := WFT_head_tag hwft hlt
  have hren : tailRender (t :: rest) level =
      (('\n' :: indentN lvlE) ++ t) ++ tailRender rest lvl2 := by
    unfold tailRender
    rw [hfmt, List.map_cons, List.flatten_cons]
    simp
  rw [hren, runTok_append, runTok_append,
    runTok_text (not_lt_newline_indent lvlE) toks acc, hmid, runTok_consume_tag hgt]
  have hpad : emitText (acc ++ '\n' :: indentN lvlE) = emitText acc :=
    emitText_append_ws acc (newline_indent_ws lvlE)
  rw [hpad, ih (toks ++ emitText acc ++ ['<' :: mid ++ ['>']]) [] (WFT_tail hwft)
    (by simp) (fun u urest h1 h2 => rfl), ← hmid, hcln]
  simp [emitText_nil]

theorem master_text_entry {t : Str} {rest : List Str} {level : Nat}
    (hlt : isLtStart t = false)
    (ih : Master rest level) : Master (t :: rest) level := by
  intro toks acc hwft hacc hpend
  obtain ⟨htx, hhead⟩ := WFT_head_txt hwft hlt
  have haccws : stripL acc = [] := hpend t rest rfl hlt
  have haccall : ∀ c ∈ acc, pyIsSpace c = true := stripL_eq_nil_iff.mp haccws
  have hren : tailRender (t :: rest) level =
      ('\n' :: (indentN level ++ stripL t)) ++ tailRender rest level := by
    unfold tailRender
    rw [formatTokens_cons_text rest level hlt, List.map_cons, List.flatten_cons]
  have hfree : '<' ∉ '\n' :: (indentN level ++ stripL t) := by
    intro h
    rcases List.mem_cons.mp h with h1 | h2
    · exact absurd h1 (by decide)
    · rcases List.mem_append.mp h2 with h3 | h4
      · exact not_lt_indentN level h3
      · exact htx.2.1 (mem_stripL h4)
  rw [hren, runTok_append, runTok_text hfree toks acc]
  have hfree2 : '<' ∉ acc ++ '\n' :: (indentN level ++ stripL t) := by
    intro h
    rcases List.mem_append.mp h with h1 | h2
    · exact hacc h1
    · exact hfree h2
  have hpend2 : ∀ u urest, rest = u :: urest → isLtStart u = false →
      stripL (acc ++ '\n' :: (indentN level ++ stripL t)) = [] := by
    intro u urest h1 h2
    rw [h1] at hhead
    rw [hhead] at h2
    exact Bool.noConfusion h2
  rw [ih toks (acc ++ '\n' :: (indentN level ++ stripL t)) (WFT_tail hwft) hfree2 hpend2]
  have e1 : emitText acc = [] := by
    unfold emitText
    rw [if_pos haccws]
  have e2 : emitText (acc ++ '\n' :: (indentN level ++ stripL t)) = [stripL t] := by
    unfold emitText
    have hsh : acc ++ '\n' :: (indentN level ++ stripL t) =
        (acc ++ '\n' :: indentN level) ++ stripL t ++ [] := by simp
    have hws1 : ∀ c ∈ acc ++ '\n' :: indentN level, pyIsSpace c = true := by
      intro c hc
      rcases List.mem_append.mp hc with h1 | h2
      · exact haccall c h1
      · exact newline_indent_ws level c h2
    rw [hsh, stripL_pad (stripL t) hws1 (by intro c hc; simp at hc), stripL_idem]
    rw [if_neg (by rw [htx.2.2]; exact htx.1)]
  rw [e1, e2, cleanToksL_cons_text rest level hlt]
  simp

/-! ## The main rendering lemma -/

theorem pySplitW_cleanWs_ne {t : Str} (hb : MAX_WIDTH < (cleanWs t).length) :
    pySplitW (cleanWs t) ≠ [] := by
  intro h0
  have h1 : cleanWs (cleanWs t) = [] := by
    show joinSp (pySplitW (cleanWs t)) = []
    rw [h0]
    rfl
  rw [cleanWs_idem] at h1
  rw [h1] at hb
  simp [MAX_WIDTH] at hb

theorem runTok_entry_tag {mid : Str} (hgt : '>' ∉ mid) (lvl : Nat) (toks : List Str)
    (acc : Str) :
    runTok ⟨toks, .text acc⟩ (('\n' :: indentN lvl) ++ ('<' :: mid ++ ['>'])) =
      ⟨toks ++ emitText acc ++ ['<' :: mid ++ ['>']], .text []⟩ := by
  rw [runTok_append, runTok_text (not_lt_newline_indent lvl), runTok_consume_tag hgt,
    emitText_append_ws acc (newline_indent_ws lvl)]

theorem renderMaster : ∀ (T : List Str) (level : Nat), Master T level := by
  intro T level
  induction T, level using formatTokens.induct with
  | case1 level =>
      intro toks acc _ _ _
      show finTok (runTok ⟨toks, .text acc⟩ (tailRender [] level)) = _
      have h1 : tailRender [] level = [] := rfl
      rw [h1]
      show toks ++ emitText acc = _
      show toks ++ emitText acc = toks ++ emitText acc ++ cleanToksL [] level
      simp [cleanToksL]
  | case2 t t1 t2 rest2 level h ih =>
      exact master_tag_entry (level - 1) (level - 1) (isClose_imp_isLt h)
        (formatTokens_cons_close _ _ h) (cleanToksL_cons_close _ _ h) ih
  | case3 t t1 t2 rest2 level hnc hlt hleaf ct hwide ih =>
      intro toks acc hwft hacc hpend
      have hpair := hleaf
      rw [Bool.and_eq_true, Bool.not_eq_true'] at hpair
      have hlt1 : isLtStart t1 = false := hpair.1
      have hcl2 : isCloseStart t2 = true := hpair.2
      obtain ⟨mid, hmid, hgt⟩ := WFT_head_tag hwft hlt
      obtain ⟨ht1, _⟩ := WFT_head_txt (WFT_tail hwft) hlt1
      obtain ⟨mid2, hmid2, hgt2⟩ :=
        WFT_head_tag (WFT_tail (WFT_tail hwft)) (isClose_imp_isLt hcl2)
      have hwft3 : WFT rest2 := WFT_tail (WFT_tail (WFT_tail hwft))
      have hwlne : wrapText MAX_WIDTH (cleanWs t1) ≠ [] :=
        wrapText_ne_nil (pySplitW_cleanWs_ne hwide)
      have hrt : renderedText level t1 =
          joinWrapped (level + 1) (wrapText MAX_WIDTH (cleanWs t1)) := by
        unfold renderedText
        rw [if_pos hwide]
      have htxr : textTok (renderedText level t1) := renderedText_textTok ht1 level
      have hfmt : formatTokens (t :: t1 :: t2 :: rest2) level =
          ((indentN level ++ t) ::
            (wrapText MAX_WIDTH (cleanWs t1)).map (fun w => indentN (level + 1) ++ w)) ++
            ((indentN level ++ t2) :: formatTokens rest2 level) := by
        simp only [formatTokens]
        rw [if_neg hnc, if_pos hlt, if_pos hleaf, if_pos hwide]
      have hcln : cleanToksL (t :: t1 :: t2 :: rest2) level =
          t :: renderedText level t1 :: t2 :: cleanToksL rest2 level := by
        simp only [cleanToksL]
        rw [if_neg hnc, if_pos hlt, if_pos hleaf]
      have hren : tailRender (t :: t1 :: t2 :: rest2) level =
          (('\n' :: indentN level) ++ ('<' :: mid ++ ['>'])) ++
            (('\n' :: (indentN (level + 1) ++
              joinWrapped (level + 1) (wrapText MAX_WIDTH (cleanWs t1)))) ++
            ((('\n' :: indentN level) ++ ('<' :: mid2 ++ ['>'])) ++
              tailRender rest2 level)) := by
        unfold tailRender
        rw [hfmt, List.map_append, List.flatten_append, List.map_cons,
          List.flatten_cons, List.map_cons, List.flatten_cons, List.map_map]
        have hcomp : ((fun e => '\n' :: e) ∘ fun w => indentN (level + 1) ++ w) =
            fun w => '\n' :: (indentN (level + 1) ++ w) := rfl
        rw [hcomp, flat_glue _ hwlne, hmid, hmid2]
        simp
      have hfreeB : '<' ∉ '\n' :: (indentN (level + 1) ++
          joinWrapped (level + 1) (wrapText MAX_WIDTH (cleanWs t1))) := by
        intro h
        rcases List.mem_cons.mp h with h1 | h2
        · exact absurd h1 (by decide)
        · rcases List.mem_append.mp h2 with h3 | h4
          · exact not_lt_indentN (level + 1) h3
          · exact htxr.2.1 (hrt ▸ h4)
      rw [hren, runTok_append, runTok_append, runTok_append,
        runTok_entry_tag hgt level toks acc, runTok_text hfreeB,
        runTok_entry_tag hgt2 level]
      have hemit : emitText ([] ++ '\n' :: (indentN (level + 1) ++
          joinWrapped (level + 1) (wrapText MAX_WIDTH (cleanWs t1)))) =
          [renderedText level t1] := by
        unfold emitText
        have hsh : ([] ++ '\n' :: (indentN (level + 1) ++
            joinWrapped (level + 1) (wrapText MAX_WIDTH (cleanWs t1)))) =
            ('\n' :: indentN (level + 1)) ++ renderedText level t1 ++ [] := by
          rw [hrt]
          simp
        rw [hsh, stripL_pad _ (newline_indent_ws (level + 1))
          (by intro c hc; simp at hc), htxr.2.2, if_neg htxr.1]
      rw [hemit, ih (toks ++ emitText acc ++ ['<' :: mid ++ ['>']] ++
        [renderedText level t1] ++ ['<' :: mid2 ++ ['>']]) [] hwft3 (by simp)
        (fun u urest h1 h2 => rfl), ← hmid, ← hmid2, hcln]
      simp [emitText_nil]
  | case4 t t1 t2 rest2 level hnc hlt hleaf ct hshort ih =>
      intro toks acc hwft hacc hpend
      have hpair := hleaf
      rw [Bool.and_eq_true, Bool.not_eq_true'] at hpair
      have hlt1 : isLtStart t1 = false := hpair.1
      have hcl2 : isCloseStart t2 = true := hpair.2
      obtain ⟨mid, hmid, hgt⟩ := WFT_head_tag hwft hlt
      obtain ⟨ht1, _⟩ := WFT_head_txt (WFT_tail hwft) hlt1
      obtain ⟨mid2, hmid2, hgt2⟩ :=
        WFT_head_tag (WFT_tail (WFT_tail hwft)) (isClose_imp_isLt hcl2)
      have hwft3 : WFT rest2 := WFT_tail (WFT_tail (WFT_tail hwft))
      have hrt : renderedText level t1 = cleanWs t1 := by
        unfold renderedText
        rw [if_neg hshort]
      have hctfree : '<' ∉ cleanWs t1 := not_mem_cleanWs ht1.2.1 (by decide)
      have hctne : cleanWs t1 ≠ [] := cleanWs_ne_nil (by rw [ht1.2.2]; exact ht1.1)
      have hfmt : formatTokens (t :: t1 :: t2 :: rest2) level =
          (indentN level ++ t ++ cleanWs t1 ++ t2) :: formatTokens rest2 level := by
        simp only [formatTokens]
        rw [if_neg hnc, if_pos hlt, if_pos hleaf, if_neg hshort]
      have hcln : cleanToksL (t :: t1 :: t2 :: rest2) level =
          t :: renderedText level t1 :: t2 :: cleanToksL rest2 level := by
        simp only [cleanToksL]
        rw [if_neg hnc, if_pos hlt, if_pos hleaf]
      have hren : tailRender (t :: t1 :: t2 :: rest2) level =
          (('\n' :: indentN level) ++ ('<' :: mid ++ ['>'])) ++
            ((cleanWs t1 ++ ('<' :: mid2 ++ ['>'])) ++ tailRender rest2 level) := by
        unfold tailRender
        rw [hfmt, List.map_cons, List.flatten_cons, hmid, hmid2]
        simp
      rw [hren, runTok_append, runTok_append, runTok_entry_tag hgt level toks acc,
        runTok_append, runTok_text hctfree, runTok_consume_tag hgt2]
      have hemit : emitText ([] ++ cleanWs t1) = [cleanWs t1] := by
        unfold emitText
        rw [List.nil_append, stripL_cleanWs, if_neg hctne]
      rw [hemit, ih (toks ++ emitText acc ++ ['<' :: mid ++ ['>']] ++ [cleanWs t1] ++
        ['<' :: mid2 ++ ['>']]) [] hwft3 (by simp) (fun u urest h1 h2 => rfl),
        ← hmid, ← hmid2, hcln, hrt]
      simp [emitText_nil]
  | case5 t t1 t2 rest2 level hnc hlt hleaf ih =>
      refine master_tag_entry level (level + 1) hlt ?_ ?_ ih
      · simp only [formatTokens]
        rw [if_neg hnc, if_pos hlt, if_neg hleaf]
      · simp only [cleanToksL]
        rw [if_neg hnc, if_pos hlt, if_neg hleaf]
  | case6 t t1 t2 rest2 level hnc hnl ih =>
      exact master_text_entry (Bool.not_eq_true _ ▸ hnl) ih
  | case7 t rest level hshape h ih =>
      exact master_tag_entry (level - 1) (level - 1) (isClose_imp_isLt h)
        (formatTokens_cons_close _ _ h) (cleanToksL_cons_close _ _ h) ih
  | case8 t rest level hshape hnc hlt ih =>
      refine master_tag_entry level (level + 1) hlt ?_ ?_ ih
      · match rest, hshape with
        | [], _ => simp [formatTokens, hnc, hlt]
        | [x], _ => simp [formatTokens, hnc, hlt]
        | x :: y :: z, hsh => exact (hsh x y z rfl).elim
      · match rest, hshape with
        | [], _ => simp [cleanToksL, hnc, hlt]
        | [x], _ => simp [cleanToksL, hnc, hlt]
        | x :: y :: z, hsh => exact (hsh x y z rfl).elim
  | case9 t rest level hshape hnc hnl ih =>
      exact master_text_entry (Bool.not_eq_true _ ▸ hnl) ih

/-! ## From the rendering lemma to the format/minify theorems -/

theorem runTok_ws_acc {ws : Str} (h : ∀ c ∈ ws, pyIsSpace c = true) (s : Str) :
    ∀ (toks : List Str) (acc : Str),
    finTok (runTok ⟨toks, .text (ws ++ acc)⟩ s) = finTok (runTok ⟨toks, .text acc⟩ s) := by
  induction s with
  | nil =>
      intro toks acc
      show toks ++ emitText (ws ++ acc) = toks ++ emitText acc
      unfold emitText
      rw [stripL_ws_left acc h]
  | cons c rest ih =>
      intro toks acc
      by_cases hc : c = '<'
      · subst hc
        show finTok (runTok (tokStep ⟨toks, .text (ws ++ acc)⟩ '<') rest) =
          finTok (runTok (tokStep ⟨toks, .text acc⟩ '<') rest)
        rw [tokStep_text_lt, tokStep_text_lt]
        have he : emitText (ws ++ acc) = emitText acc := by
          unfold emitText
          rw [stripL_ws_left acc h]
        rw [he]
      · show finTok (runTok (tokStep ⟨toks, .text (ws ++ acc)⟩ c) rest) =
          finTok (runTok (tokStep ⟨toks, .text acc⟩ c) rest)
        rw [tokStep_text_other hc, tokStep_text_other hc, List.append_assoc]
        exact ih toks (acc ++ [c])

theorem formatTokens_ne_nil (t : Str) (rest : List Str) (level : Nat) :
    formatTokens (t :: rest) level ≠ [] := by
  by_cases hc : isCloseStart t = true
  · rw [formatTokens_cons_close rest level hc]
    exact List.cons_ne_nil _ _
  · by_cases hl : isLtStart t = true
    · match rest with
      | [] => simp [formatTokens, hc, hl]
      | [x] => simp [formatTokens, hc, hl]
      | x :: y :: z =>
          simp only [formatTokens]
          rw [if_neg hc, if_pos hl]
          by_cases hleaf : (!isLtStart x && isCloseStart y) = true
          · rw [if_pos hleaf]
            by_cases hw : MAX_WIDTH < (cleanWs x).length
            · rw [if_pos hw]
              simp
            · rw [if_neg hw]
              exact List.cons_ne_nil _ _
          · rw [if_neg hleaf]
            exact List.cons_ne_nil _ _
    · rw [formatTokens_cons_text rest level (Bool.eq_false_iff.mpr hl)]
      exact List.cons_ne_nil _ _

theorem tailRender_eq_joinNl (T : List Str) (level : Nat)
    (h : formatTokens T level ≠ []) :
    tailRender T level = '\n' :: joinNl (formatTokens T level) := by
  unfold tailRender
  generalize formatTokens T level = es at h
  induction es with
  | nil => exact absurd rfl h
  | cons e es2 ih =>
      cases es2 with
      | nil => simp [joinNl]
      | cons f fs =>
          rw [List.map_cons, List.flatten_cons, ih (List.cons_ne_nil f fs)]
          have h2 : joinNl (e :: f :: fs) = e ++ '\n' :: joinNl (f :: fs) := rfl
          rw [h2]
          simp

theorem tokens_format {T : List Str} (h : WFT T) (level : Nat) :
    getTokens (joinNl (formatTokens T level)) = cleanToksL T level := by
  cases T with
  | nil => rfl
  | cons t rest =>
      have hne := formatTokens_ne_nil t rest level
      have hmaster := renderMaster (t :: rest) level [] [] h (by simp)
        (fun u urest h1 h2 => rfl)
      rw [tailRender_eq_joinNl _ _ hne] at hmaster
      have hstep : runTok ⟨[], TMode.text []⟩
          ('\n' :: joinNl (formatTokens (t :: rest) level)) =
          runTok ⟨[], TMode.text (['\n'] ++ [])⟩
            (joinNl (formatTokens (t :: rest) level)) := by
        show runTok (tokStep ⟨[], TMode.text []⟩ '\n') _ = _
        rw [tokStep_text_other (by decide)]
        rfl
      rw [hstep] at hmaster
      rw [runTok_ws_acc (by decide) _ [] []] at hmaster
      show finTok (runTok ⟨[], TMode.text []⟩ (joinNl (formatTokens (t :: rest) level))) = _
      rw [hmaster]
      simp [emitText_nil]

theorem getTokens_format (l : Str) : getTokens (format l) = cleanToksL (getTokens l) 0 := by
  show getTokens (joinNl (formatTokens (getTokens l) 0)) = _
  exact tokens_format (getTokens_WFT l) 0

theorem cleanToksL_id {T : List Str} (h : WFT T) (level : Nat)
    (hcs : ∀ t ∈ T, isLtStart t = false → cleanWs t = t ∧ t.length ≤ MAX_WIDTH) :
    cleanToksL T level = T := by
  induction T, level using cleanToksL.induct with
  | case1 level => rfl
  | case2 t t1 t2 rest2 level hc ih =>
      rw [cleanToksL_cons_close _ _ hc,
        ih (WFT_tail h) (fun u hu hlt => hcs u (List.mem_cons_of_mem t hu) hlt)]
  | case3 t t1 t2 rest2 level hnc hlt hleaf ih =>
      simp only [cleanToksL]
      rw [if_neg hnc, if_pos hlt, if_pos hleaf]
      have hpair := hleaf
      rw [Bool.and_eq_true, Bool.not_eq_true'] at hpair
      have ht1 := hcs t1 (by simp) hpair.1
      have hrt : renderedText level t1 = t1 := by
        unfold renderedText
        rw [if_neg (by rw [ht1.1]; exact fun hh => absurd ht1.2 (by omega)), ht1.1]
      rw [hrt, ih (WFT_tail (WFT_tail (WFT_tail h)))
        (fun u hu hlt2 => hcs u (by simp [hu]) hlt2)]
  | case4 t t1 t2 rest2 level hnc hlt hleaf ih =>
      simp only [cleanToksL]
      rw [if_neg hnc, if_pos hlt, if_neg hleaf]
      rw [ih (WFT_tail h) (fun u hu hlt2 => hcs u (List.mem_cons_of_mem t hu) hlt2)]
  | case5 t t1 t2 rest2 level hnc hnl ih =>
      have hlt : isLtStart t = false := Bool.eq_false_iff.mpr hnl
      rw [cleanToksL_cons_text _ _ hlt, (WFT_head_txt h hlt).1.2.2,
        ih (WFT_tail h) (fun u hu hlt2 => hcs u (List.mem_cons_of_mem t hu) hlt2)]
  | case6 t rest level hshape hc ih =>
      rw [cleanToksL_cons_close _ _ hc,
        ih (WFT_tail h) (fun u hu hlt => hcs u (List.mem_cons_of_mem t hu) hlt)]
  | case7 t rest level hshape hnc hlt ih =>
      have hfmt : cleanToksL (t :: rest) level = t :: cleanToksL rest (level + 1) := by
        match rest, hshape with
        | [], _ => simp [cleanToksL, hnc, hlt]
        | [x], _ => simp [cleanToksL, hnc, hlt]
        | x :: y :: z, hsh => exact (hsh x y z rfl).elim
      rw [hfmt, ih (WFT_tail h) (fun u hu hlt2 => hcs u (List.mem_cons_of_mem t hu) hlt2)]
  | case8 t rest level hshape hnc hnl ih =>
      have hlt : isLtStart t = false := Bool.eq_false_iff.mpr hnl
      rw [cleanToksL_cons_text _ _ hlt, (WFT_head_txt h hlt).1.2.2,
        ih (WFT_tail h) (fun u hu hlt2 => hcs u (List.mem_cons_of_mem t hu) hlt2)]

/-- C2, amended.  If every text token of `x` is already
whitespace-normalized and fits within the 80-column width, formatting
changes only inter-token whitespace, so `minify(format(x)) == minify(x)`.
(Structural balance is not required.) -/
theorem minify_format_eq_minify_of_clean_short (s : String)
    (h : ∀ t ∈ getTokens s.data, isLtStart t = false →
      cleanWs t = t ∧ t.length ≤ MAX_WIDTH) :
    minifyS (formatS s) = minifyS s := by
  show String.mk (minify (format s.data)) = String.mk (minify s.data)
  unfold minify
  rw [getTokens_format, cleanToksL_id (getTokens_WFT s.data) 0 h]

/-- Witness for the amended C2 at a concrete document. -/
theorem minify_format_eq_minify_witness :
    minifyS (formatS "<user><id>1</id><name>Ali</name></user>") =
      minifyS "<user><id>1</id><name>Ali</name></user>" :=
  minify_format_eq_minify_of_clean_short "<user><id>1</id><name>Ali</name></user>"
    (by decide)

/-! ## Idempotence of format -/

theorem cleanToksL_head {t : Str} {rest : List Str} (h : WFT (t :: rest)) (lvl : Nat) :
    ∃ rem, cleanToksL (t :: rest) lvl = t :: rem := by
  by_cases hc : isCloseStart t = true
  · exact ⟨_, cleanToksL_cons_close _ _ hc⟩
  · by_cases hl : isLtStart t = true
    · match rest with
      | [] => exact ⟨[], by simp [cleanToksL, hc, hl]⟩
      | [x] => exact ⟨cleanToksL [x] (lvl + 1), by simp [cleanToksL, hc, hl]⟩
      | x :: y :: z =>
          by_cases hleaf : (!isLtStart x && isCloseStart y) = true
          · refine ⟨renderedText lvl x :: y :: cleanToksL z lvl, ?_⟩
            simp only [cleanToksL]
            rw [if_neg hc, if_pos hl, if_pos hleaf]
          · refine ⟨cleanToksL (x :: y :: z) (lvl + 1), ?_⟩
            simp only [cleanToksL]
            rw [if_neg hc, if_pos hl, if_neg hleaf]
    · have hlf : isLtStart t = false := Bool.eq_false_iff.mpr hl
      refine ⟨cleanToksL rest lvl, ?_⟩
      rw [cleanToksL_cons_text _ _ hlf, (WFT_head_txt h hlf).1.2.2]

theorem cleanToksL_singleton (x : Str) (lvl : Nat) :
    ∃ y, cleanToksL [x] lvl = [y] := by
  by_cases hc : isCloseStart x = true
  · exact ⟨x, by simp [cleanToksL, hc]⟩
  · by_cases hl : isLtStart x = true
    · exact ⟨x, by simp [cleanToksL, hc, hl]⟩
    · exact ⟨stripL x, by simp [cleanToksL, hc, hl]⟩

theorem cleanToksL_two {t1 t2 : Str} {rest2 : List Str} (h : WFT (t1 :: t2 :: rest2))
    (lvl : Nat) :
    ∃ s2 rem, cleanToksL (t1 :: t2 :: rest2) lvl = t1 :: s2 :: rem ∧
      isLtStart s2 = isLtStart t2 ∧ isCloseStart s2 = isCloseStart t2 := by
  by_cases hc : isCloseStart t1 = true
  · obtain ⟨rem, hrem⟩ := cleanToksL_head (WFT_tail h) (lvl - 1)
    exact ⟨t2, rem, by rw [cleanToksL_cons_close _ _ hc, hrem], rfl, rfl⟩
  · by_cases hl : isLtStart t1 = true
    · match rest2, h with
      | [], h =>
          obtain ⟨rem, hrem⟩ := cleanToksL_head (WFT_tail h) (lvl + 1)
          have houter : cleanToksL (t1 :: t2 :: ([] : List Str)) lvl =
              t1 :: cleanToksL [t2] (lvl + 1) := by
            simp [cleanToksL, hc, hl]
          exact ⟨t2, rem, by rw [houter, hrem], rfl, rfl⟩
      | r0 :: rest3, h =>
          by_cases hleaf : (!isLtStart t2 && isCloseStart r0) = true
          · have hpair := hleaf
            rw [Bool.and_eq_true, Bool.not_eq_true'] at hpair
            obtain ⟨ht2, _⟩ := WFT_head_txt (WFT_tail h) hpair.1
            have htxr := renderedText_textTok ht2 lvl
            refine ⟨renderedText lvl t2, r0 :: cleanToksL rest3 lvl, ?_, ?_, ?_⟩
            · simp only [cleanToksL]
              rw [if_neg hc, if_pos hl, if_pos hleaf]
            · rw [textTok_not_isLt htxr, hpair.1]
            · rw [not_isLt_not_isClose (textTok_not_isLt htxr),
                not_isLt_not_isClose hpair.1]
          · obtain ⟨rem, hrem⟩ := cleanToksL_head (WFT_tail h) (lvl + 1)
            have houter : cleanToksL (t1 :: t2 :: r0 :: rest3) lvl =
                t1 :: cleanToksL (t2 :: r0 :: rest3) (lvl + 1) := by
              simp only [cleanToksL]
              rw [if_neg hc, if_pos hl, if_neg hleaf]
            exact ⟨t2, rem, by rw [houter, hrem], rfl, rfl⟩
    · have hlf : isLtStart t1 = false := Bool.eq_false_iff.mpr hl
      obtain ⟨rem, hrem⟩ := cleanToksL_head (WFT_tail h) lvl
      exact ⟨t2, rem, by
        rw [cleanToksL_cons_text _ _ hlf, (WFT_head_txt h hlf).1.2.2, hrem], rfl, rfl⟩

theorem formatTokens_cleanToksL : ∀ (T : List Str) (lvl : Nat), WFT T →
    formatTokens (cleanToksL T lvl) lvl = formatTokens T lvl := by
  intro T lvl
  induction T, lvl using formatTokens.induct with
  | case1 lvl => intro _; rfl
  | case2 t t1 t2 rest2 lvl hc ih =>
      intro hwft
      rw [cleanToksL_cons_close _ _ hc, formatTokens_cons_close _ _ hc,
        ih (WFT_tail hwft), ← formatTokens_cons_close _ _ hc]
  | case3 t t1 t2 rest2 lvl hnc hlt hleaf ct hwide ih =>
      intro hwft
      have hpair := hleaf
      rw [Bool.and_eq_true, Bool.not_eq_true'] at hpair
      obtain ⟨ht1, _⟩ := WFT_head_txt (WFT_tail hwft) hpair.1
      have htxr := renderedText_textTok ht1 lvl
      have hwft3 := WFT_tail (WFT_tail (WFT_tail hwft))
      have hcln : cleanToksL (t :: t1 :: t2 :: rest2) lvl =
          t :: renderedText lvl t1 :: t2 :: cleanToksL rest2 lvl := by
        simp only [cleanToksL]
        rw [if_neg hnc, if_pos hlt, if_pos hleaf]
      have hguard : (!isLtStart (renderedText lvl t1) && isCloseStart t2) = true := by
        rw [textTok_not_isLt htxr]
        simp [hpair.2]
      have hcw : cleanWs (renderedText lvl t1) = cleanWs t1 := cleanWs_renderedText lvl t1
      have hfmtL : formatTokens (t :: renderedText lvl t1 :: t2 :: cleanToksL rest2 lvl) lvl =
          ((indentN lvl ++ t) ::
            (wrapText MAX_WIDTH (cleanWs t1)).map (fun w => indentN (lvl + 1) ++ w)) ++
            ((indentN lvl ++ t2) :: formatTokens (cleanToksL rest2 lvl) lvl) := by
        simp only [formatTokens]
        rw [if_neg hnc, if_pos hlt, if_pos hguard, hcw, if_pos hwide]
      have hfmtR : formatTokens (t :: t1 :: t2 :: rest2) lvl =
          ((indentN lvl ++ t) ::
            (wrapText MAX_WIDTH (cleanWs t1)).map (fun w => indentN (lvl + 1) ++ w)) ++
            ((indentN lvl ++ t2) :: formatTokens rest2 lvl) := by
        simp only [formatTokens]
        rw [if_neg hnc, if_pos hlt, if_pos hleaf, if_pos hwide]
      rw [hcln, hfmtL, hfmtR, ih hwft3]
  | case4 t t1 t2 rest2 lvl hnc hlt hleaf ct hshort ih =>
      intro hwft
      have hpair := hleaf
      rw [Bool.and_eq_true, Bool.not_eq_true'] at hpair
      obtain ⟨ht1, _⟩ := WFT_head_txt (WFT_tail hwft) hpair.1
      have htxr := renderedText_textTok ht1 lvl
      have hwft3 := WFT_tail (WFT_tail (WFT_tail hwft))
      have hcln : cleanToksL (t :: t1 :: t2 :: rest2) lvl =
          t :: renderedText lvl t1 :: t2 :: cleanToksL rest2 lvl := by
        simp only [cleanToksL]
        rw [if_neg hnc, if_pos hlt, if_pos hleaf]
      have hguard : (!isLtStart (renderedText lvl t1) && isCloseStart t2) = true := by
        rw [textTok_not_isLt htxr]
        simp [hpair.2]
      have hcw : cleanWs (renderedText lvl t1) = cleanWs t1 := cleanWs_renderedText lvl t1
      have hfmtL : formatTokens (t :: renderedText lvl t1 :: t2 :: cleanToksL rest2 lvl) lvl =
          (indentN lvl ++ t ++ cleanWs t1 ++ t2) ::
            formatTokens (cleanToksL rest2 lvl) lvl := by
        simp only [formatTokens]
        rw [if_neg hnc, if_pos hlt, if_pos hguard, hcw, if_neg hshort]
      have hfmtR : formatTokens (t :: t1 :: t2 :: rest2) lvl =
          (indentN lvl ++ t ++ cleanWs t1 ++ t2) :: formatTokens rest2 lvl := by
        simp only [formatTokens]
        rw [if_neg hnc, if_pos hlt, if_pos hleaf, if_neg hshort]
      rw [hcln, hfmtL, hfmtR, ih hwft3]
  | case5 t t1 t2 rest2 lvl hnc hlt hleaf ih =>
      intro hwft
      have houter : cleanToksL (t :: t1 :: t2 :: rest2) lvl =
          t :: cleanToksL (t1 :: t2 :: rest2) (lvl + 1) := by
        simp only [cleanToksL]
        rw [if_neg hnc, if_pos hlt, if_neg hleaf]
      obtain ⟨s2, rem, hC, hlteq, hcleq⟩ := cleanToksL_two (WFT_tail hwft) (lvl + 1)
      have hguard2 : (!isLtStart t1 && isCloseStart s2) = false := by
        rw [hcleq]
        exact Bool.eq_false_iff.mpr hleaf
      have hfmtL : formatTokens (t :: t1 :: s2 :: rem) lvl =
          (indentN lvl ++ t) :: formatTokens (t1 :: s2 :: rem) (lvl + 1) := by
        simp only [formatTokens]
        rw [if_neg hnc, if_pos hlt, if_neg (by simp [hguard2])]
      have hfmtR : formatTokens (t :: t1 :: t2 :: rest2) lvl =
          (indentN lvl ++ t) :: formatTokens (t1 :: t2 :: rest2) (lvl + 1) := by
        simp only [formatTokens]
        rw [if_neg hnc, if_pos hlt, if_neg hleaf]
      rw [houter, hC, hfmtL, ← hC, ih (WFT_tail hwft), hfmtR]
  | case6 t t1 t2 rest2 lvl hnc hnl ih =>
      intro hwft
      have hlf : isLtStart t = false := Bool.eq_false_iff.mpr hnl
      rw [cleanToksL_cons_text _ _ hlf, (WFT_head_txt hwft hlf).1.2.2,
        formatTokens_cons_text _ _ hlf, ih (WFT_tail hwft),
        ← formatTokens_cons_text _ _ hlf]
  | case7 t rest lvl hshape hc ih =>
      intro hwft
      rw [cleanToksL_cons_close _ _ hc, formatTokens_cons_close _ _ hc,
        ih (WFT_tail hwft), ← formatTokens_cons_close _ _ hc]
  | case8 t rest lvl hshape hnc hlt ih =>
      intro hwft
      match rest, hshape, ih with
      | [], _, ih => simp [cleanToksL, formatTokens, hnc, hlt]
      | [x], _, ih =>
          have houter : cleanToksL (t :: [x]) lvl = t :: cleanToksL [x] (lvl + 1) := by
            simp [cleanToksL, hnc, hlt]
          obtain ⟨y, hy⟩ := cleanToksL_singleton x (lvl + 1)
          have hfmtL : formatTokens (t :: [y]) lvl =
              (indentN lvl ++ t) :: formatTokens [y] (lvl + 1) := by
            simp [formatTokens, hnc, hlt]
          have hfmtR : formatTokens (t :: [x]) lvl =
              (indentN lvl ++ t) :: formatTokens [x] (lvl + 1) := by
            simp [formatTokens, hnc, hlt]
          rw [houter, hy, hfmtL, ← hy, ih (WFT_tail hwft), hfmtR]
      | x :: y :: z, hsh, _ => exact (hsh x y z rfl).elim
  | case9 t rest lvl hshape hnc hnl ih =>
      intro hwft
      have hlf : isLtStart t = false := Bool.eq_false_iff.mpr hnl
      rw [cleanToksL_cons_text _ _ hlf, (WFT_head_txt hwft hlf).1.2.2,
        formatTokens_cons_text _ _ hlf, ih (WFT_tail hwft),
        ← formatTokens_cons_text _ _ hlf]

/-- C3.  `format` is idempotent on every input: re-tokenizing `format`'s
output recovers the rendered token list, and rendering it again produces
the same entries. -/
theorem format_idempotent (s : String) : formatS (formatS s) = formatS s := by
  show String.mk (format (format s.data)) = String.mk (format s.data)
  have h1 : format (format s.data) =
      joinNl (formatTokens (cleanToksL (getTokens s.data) 0) 0) := by
    show joinNl (formatTokens (getTokens (format s.data)) 0) = _
    rw [getTokens_format]
  rw [h1, formatTokens_cleanToksL (getTokens s.data) 0 (getTokens_WFT s.data)]
  rfl

/-! ## The amended bare-text rendering theorem -/

/-- C9, amended.  A bare text token outside the leaf pattern is emitted as
one single output entry: the token stripped of leading and trailing
whitespace, prefixed with the current indent, with any embedded newlines
preserved verbatim (no per-line splitting, trimming or re-indentation of
continuation lines).  Stated end to end over the mixed-content frame
`<a> ... <b></b></a>` for an arbitrary `<`-free bare text with non-empty
stripped form. -/
theorem format_bare_text_single_entry (t : Str) (hlt : '<' ∉ t)
    (hs : stripL t ≠ []) :
    format ("<a>".data ++ t ++ "<b></b></a>".data) =
      "<a>\n    ".data ++ stripL t ++ "\n    <b>\n    </b>\n</a>".data := by
  have httok : textTok (stripL t) :=
    ⟨hs, fun hm => hlt (mem_stripL hm), stripL_idem t⟩
  have hlt2 : isLtStart (stripL t) = false := textTok_not_isLt httok
  have hemit : emitText t = [stripL t] := by
    unfold emitText
    rw [if_neg hs]
  have hsfx : ("<b></b></a>".data : Str) =
      (('<' :: ['b']) ++ ['>']) ++
        ((('<' :: ['/', 'b']) ++ ['>']) ++ (('<' :: ['/', 'a']) ++ ['>'])) := rfl
  have h1 : runTok ⟨[], TMode.text []⟩ "<a>".data = ⟨["<a>".data], .text []⟩ := rfl
  have h3 : runTok ⟨["<a>".data], TMode.text t⟩ "<b></b></a>".data =
      ⟨["<a>".data, stripL t, "<b>".data, "</b>".data, "</a>".data], .text []⟩ := by
    rw [hsfx, runTok_append, runTok_consume_tag (by decide), runTok_append,
      runTok_consume_tag (by decide), runTok_consume_tag (by decide), hemit]
    rfl
  have htoks : getTokens ("<a>".data ++ t ++ "<b></b></a>".data) =
      ["<a>".data, stripL t, "<b>".data, "</b>".data, "</a>".data] := by
    show finTok (runTok ⟨[], TMode.text []⟩ ("<a>".data ++ t ++ "<b></b></a>".data)) = _
    rw [runTok_append, runTok_append, h1, runTok_text hlt, List.nil_append, h3]
    rfl
  have hA : formatTokens ["<a>".data, stripL t, "<b>".data, "</b>".data, "</a>".data] 0 =
      (indentN 0 ++ "<a>".data) ::
        formatTokens [stripL t, "<b>".data, "</b>".data, "</a>".data] 1 := by
    simp only [formatTokens]
    rw [if_neg (by decide), if_pos (by decide), if_neg (by rw [hlt2]; decide)]
  have hfmt : formatTokens ["<a>".data, stripL t, "<b>".data, "</b>".data, "</a>".data] 0 =
      ["<a>".data, indentN 1 ++ stripL t, "    <b>".data, "    </b>".data, "</a>".data] := by
    rw [hA, formatTokens_cons_text _ 1 hlt2, stripL_idem]
    rfl
  show joinNl (formatTokens (getTokens ("<a>".data ++ t ++ "<b></b></a>".data)) 0) = _
  rw [htoks, hfmt]
  rfl

/-- Witness for the amended bare-text theorem at the concrete token
`"p\n  q"` (whose second line carries its own two-space indentation). -/
theorem format_bare_text_single_entry_witness :
    '<' ∉ "p\n  q".data ∧ stripL "p\n  q".data ≠ [] ∧
    format ("<a>".data ++ "p\n  q".data ++ "<b></b></a>".data) =
      "<a>\n    ".data ++ stripL "p\n  q".data ++ "\n    <b>\n    </b>\n</a>".data :=
  ⟨by decide, by decide,
    format_bare_text_single_entry ("p\n  q".data) (by decide) (by decide)⟩

end SocialX
